import Mathlib

/-
Verification development for the win2xcur-gui cursor theme converter.

Part 1 models the INF descriptor parser (src/inf_parser.py) over lists of
characters. Text in the Python code is processed after a global call to
str.lower, and the regular expressions used there are simple enough to be
modelled by direct scanning functions. The model restricts the Python
character classes to their ASCII meaning, which is the range exercised by
descriptor files and by every concrete input used below.
-/

namespace W2X

/-- Table of ASCII uppercase letters and their lowercase forms, used to model
Python str.lower character by character. -/
def lowerPairs : List (Char × Char) :=
  [('A', 'a'), ('B', 'b'), ('C', 'c'), ('D', 'd'), ('E', 'e'), ('F', 'f'),
   ('G', 'g'), ('H', 'h'), ('I', 'i'), ('J', 'j'), ('K', 'k'), ('L', 'l'),
   ('M', 'm'), ('N', 'n'), ('O', 'o'), ('P', 'p'), ('Q', 'q'), ('R', 'r'),
   ('S', 's'), ('T', 't'), ('U', 'u'), ('V', 'v'), ('W', 'w'), ('X', 'x'),
   ('Y', 'y'), ('Z', 'z')]

/-- Model of Python str.lower on one character (ASCII range). -/
def pyLowerChar (c : Char) : Char :=
  ((lowerPairs.find? (fun p => p.1 = c)).map Prod.snd).getD c

/-- Model of Python str.lower on a whole text. -/
def pyLower (l : List Char) : List Char :=
  l.map pyLowerChar

/-- Python whitespace characters, as stripped by str.strip and matched by the
regex whitespace class (ASCII part). -/
def pyIsSpace (c : Char) : Bool :=
  c = ' ' || c = '\t' || c = '\n' || c = '\r' || c = '\x0b' || c = '\x0c'

/-- Model of the regex word character class (ASCII part): letters, digits and
the underscore. -/
def isWordChar (c : Char) : Bool :=
  c.isAlphanum || c = '_'

/-- Strip characters satisfying p from both ends, as Python str.strip does. -/
def pyStripWith (p : Char → Bool) (l : List Char) : List Char :=
  ((l.dropWhile p).reverse.dropWhile p).reverse

/-- Model of Python str.strip with no argument. -/
def pyStrip (l : List Char) : List Char :=
  pyStripWith pyIsSpace l

/-- Model of Python str.split with a one character separator: the pieces
between separators, empty pieces included. -/
def pySplit (sep : Char) : List Char → List (List Char)
  | [] => [[]]
  | c :: rest =>
    match pySplit sep rest with
    | [] => [[]]
    | h :: t => if c = sep then [] :: h :: t else (c :: h) :: t

/-- Whether pat occurs as a contiguous substring, as the Python in operator
on strings. -/
def containsSub (pat : List Char) : List Char → Bool
  | [] => List.isPrefixOf pat []
  | l@(_ :: rest) => List.isPrefixOf pat l || containsSub pat rest

/-- The suffix that follows the first occurrence of pat, or none when pat does
not occur. Models the scanning phase of re.search for a literal pattern. -/
def afterFirst (pat : List Char) : List Char → Option (List Char)
  | [] => if List.isPrefixOf pat [] then some [] else none
  | l@(_ :: rest) =>
    if List.isPrefixOf pat l then some (l.drop pat.length)
    else afterFirst pat rest

/-- The lazily captured body of a section: everything up to the first position
where a newline followed by an opening bracket starts, or to the end. This is
the capture group of the section regex in extract section. -/
def sectionBody : List Char → List Char
  | [] => []
  | l@(c :: rest) =>
    if List.isPrefixOf ['\n', '['] l then [] else c :: sectionBody rest

/-- Model of INFParser extract section: find the bracketed section header,
capture lazily up to the next section header or the end, and strip. -/
def extractSection (content : List Char) (name : List Char) :
    Option (List Char) :=
  (afterFirst ('[' :: (name ++ [']'])) content).map
    (fun tail => pyStrip (sectionBody tail))

/-- Model of the AddReg line regex. The function receives one stripped line of
a section body; such lines contain no newline character, so the dot in the
pattern matches every remaining character. When everything after the equals
sign is whitespace, the greedy whitespace part backtracks one character so
that the group still matches. -/
def matchAddReg (line : List Char) : Option (List Char) :=
  if List.isPrefixOf ("addreg".data) line then
    match (line.drop 6).dropWhile pyIsSpace with
    | '=' :: tail =>
      let rest := tail.dropWhile pyIsSpace
      if rest = [] then
        if tail = [] then none else some [tail.getLastD ' ']
      else some rest
    | _ => none
  else none

/-- Body of the loop in get addreg sections: the first line that is not
empty, not a comment, and matches the AddReg regex yields the list of section
names, split on commas, stripped, lowercased, empties removed. -/
def addregLineVal : List (List Char) → List (List Char)
  | [] => []
  | line :: rest =>
    let l := pyStrip line
    if l = [] ∨ l.headD ' ' = ';' then addregLineVal rest
    else
      match matchAddReg l with
      | some value =>
        (pySplit ',' (pyStrip value)).filterMap (fun s =>
          let s2 := pyStrip s
          if s2 = [] then none else some (pyLower s2))
      | none => addregLineVal rest

/-- Model of INFParser get addreg sections. -/
def getAddregSections (content : List Char) : List (List Char) :=
  match extractSection content ("defaultinstall".data) with
  | none => []
  | some body => addregLineVal (pySplit '\n' body)

/-- Match the interior of one quoted token of the quoted token regex, where a
doubled quote continues the token. The input starts right after the opening
quote; the result is the captured group and the remainder after the closing
quote. Greedy matching of the doubled quote groups is tried first and given
up when no closing quote follows, exactly as the regex engine backtracks. -/
def matchContent : List Char → Option (List Char × List Char)
  | [] => none
  | '"' :: '"' :: rest2 =>
    match matchContent rest2 with
    | some (g, r) => some ('"' :: '"' :: g, r)
    | none => some ([], '"' :: rest2)
  | '"' :: rest => some ([], rest)
  | c :: rest =>
    match matchContent rest with
    | some (g, r) => some (c :: g, r)
    | none => none

theorem matchContent_shrink (l : List Char) :
    ∀ {g r : List Char}, matchContent l = some (g, r) → r.length < l.length := by
  induction l using matchContent.induct with
  | case1 =>
    intro g r h
    simp [matchContent] at h
  | case2 rest2 g2 r2 hm ih =>
    intro g r h
    simp only [matchContent, hm] at h
    cases h
    have := ih hm
    simp only [List.length_cons]
    omega
  | case3 rest2 hm ih =>
    intro g r h
    simp only [matchContent, hm] at h
    cases h
    simp
  | case4 rest hside =>
    intro g r h
    rcases rest with _ | ⟨c2, t⟩
    · simp only [matchContent] at h
      cases h
      simp
    · have hc2 : ¬ (c2 = '"') := fun he => hside t (by rw [he])
      simp only [matchContent, hc2] at h
      cases h
      simp
  | case5 c rest hside hq g2 r2 hm ih =>
    intro g r h
    have hc : ¬ (c = '"') := fun he => hq he
    simp only [matchContent, hc, hm] at h
    cases h
    have := ih hm
    simp only [List.length_cons]
    omega
  | case6 c rest hside hq hm ih =>
    intro g r h
    have hc : ¬ (c = '"') := fun he => hq he
    simp only [matchContent, hc, hm] at h
    exact Option.noConfusion h

/-- Fuel driven scan of re.findall for the quoted token pattern: scan left to
right, collect each captured group, resume after the closing quote of each
match. The fuel only serves structural recursion; the lemma below shows that
any fuel of at least the length of the input gives the same answer, so the
wrapper with fuel equal to the input length is the exact findall loop. -/
def findQuotedFuel : Nat → List Char → List (List Char)
  | 0, _ => []
  | _, [] => []
  | fuel + 1, c :: rest =>
    if c = '"' then
      match matchContent rest with
      | some (g, r) => g :: findQuotedFuel fuel r
      | none => findQuotedFuel fuel rest
    else findQuotedFuel fuel rest

theorem findQuotedFuel_stable :
    ∀ (fuel fuel2 : Nat) (l : List Char), l.length ≤ fuel → l.length ≤ fuel2 →
      findQuotedFuel fuel l = findQuotedFuel fuel2 l := by
  intro fuel
  induction fuel with
  | zero =>
    intro fuel2 l h1 h2
    have : l = [] := List.length_eq_zero.mp (Nat.le_zero.mp h1)
    subst this
    cases fuel2 <;> rfl
  | succ n ih =>
    intro fuel2 l h1 h2
    cases l with
    | nil => cases fuel2 <;> rfl
    | cons c rest =>
      cases fuel2 with
      | zero => simp at h2
      | succ m =>
        have h1r : rest.length ≤ n := by
          simp only [List.length_cons] at h1
          omega
        have h2r : rest.length ≤ m := by
          simp only [List.length_cons] at h2
          omega
        by_cases hc : c = '"'
        · subst hc
          cases hm : matchContent rest with
          | some p =>
            obtain ⟨g, r⟩ := p
            have hr := matchContent_shrink rest hm
            have e1 : findQuotedFuel (n + 1) ('"' :: rest) = g :: findQuotedFuel n r := by
              simp [findQuotedFuel, hm]
            have e2 : findQuotedFuel (m + 1) ('"' :: rest) = g :: findQuotedFuel m r := by
              simp [findQuotedFuel, hm]
            rw [e1, e2, ih m r (by omega) (by omega)]
          | none =>
            have e1 : findQuotedFuel (n + 1) ('"' :: rest) = findQuotedFuel n rest := by
              simp [findQuotedFuel, hm]
            have e2 : findQuotedFuel (m + 1) ('"' :: rest) = findQuotedFuel m rest := by
              simp [findQuotedFuel, hm]
            rw [e1, e2, ih m rest h1r h2r]
        · have e1 : findQuotedFuel (n + 1) (c :: rest) = findQuotedFuel n rest := by
            simp [findQuotedFuel, hc]
          have e2 : findQuotedFuel (m + 1) (c :: rest) = findQuotedFuel m rest := by
            simp [findQuotedFuel, hc]
          rw [e1, e2, ih m rest h1r h2r]

/-- Model of re.findall for the quoted token pattern. -/
def findQuoted (l : List Char) : List (List Char) :=
  findQuotedFuel l.length l

/-- Model of the key value regex of parse strings, applied to one stripped
line: a nonempty run of word characters, optional whitespace, an equals sign,
optional whitespace, an optional opening quote, then a nonempty run of
characters other than a quote (the captured value). -/
def parseStringsLine (line : List Char) : Option (List Char × List Char) :=
  let key := line.takeWhile isWordChar
  if key = [] then none
  else
    match (line.drop key.length).dropWhile pyIsSpace with
    | '=' :: r2 =>
      let r3 := r2.dropWhile pyIsSpace
      match r3 with
      | '"' :: r4 =>
        let v := r4.takeWhile (fun c => c ≠ '"')
        if v = [] then none else some (key, v)
      | _ =>
        let v := r3.takeWhile (fun c => c ≠ '"')
        if v = [] then none else some (key, v)
    | _ => none

/-- Python dict assignment on an association list: replace the value of an
existing key in place, otherwise append at the end. -/
def dictInsert {α : Type} (k : List Char) (v : α) :
    List (List Char × α) → List (List Char × α)
  | [] => [(k, v)]
  | (k2, v2) :: t =>
    if k2 = k then (k, v) :: t else (k2, v2) :: dictInsert k v t

/-- Python dict lookup on an association list. -/
def dictLookup {α : Type} (k : List Char) (d : List (List Char × α)) :
    Option α :=
  (d.find? (fun p => p.1 = k)).map Prod.snd

/-- Python dict deletion of one key on an association list, modelling removal
of a filesystem path. -/
def dictErase {α : Type} (k : List Char) :
    List (List Char × α) → List (List Char × α)
  | [] => []
  | (k2, v2) :: t =>
    if k2 = k then t else (k2, v2) :: dictErase k t

/-- Loop of parse strings over the lines of the Strings section: skip blank
and comment lines, store each matched key and value with the key lowercased
and the value stripped of quotes and whitespace. -/
def parseStringsLoop (d : List (List Char × List Char)) :
    List (List Char) → List (List Char × List Char)
  | [] => d
  | line :: rest =>
    let l := pyStrip line
    if l = [] ∨ l.headD ' ' = ';' then parseStringsLoop d rest
    else
      match parseStringsLine l with
      | some (k, v) =>
        parseStringsLoop
          (dictInsert (pyLower k) (pyStrip (pyStripWith (fun c => c = '"') v)) d)
          rest
      | none => parseStringsLoop d rest

/-- Model of INFParser parse strings. -/
def parseStrings (content : List Char) : List (List Char × List Char) :=
  parseStringsLoop [] (pySplit '\n' content)

/-- Model of re.search for the percent variable pattern: at each percent sign
try a nonempty greedy run of word characters followed by another percent
sign; the first position where this succeeds yields the variable name. -/
def findVar : List Char → Option (List Char)
  | [] => none
  | c :: rest =>
    if c = '%' then
      let run := rest.takeWhile isWordChar
      if run ≠ [] ∧ (rest.drop run.length).headD ' ' = '%' then some run
      else findVar rest
    else findVar rest

/-- The fixed 15 role ordinal table WIN_CURSOR_ORDER of src/constants.py. -/
def WIN_CURSOR_ORDER : List (List Char) :=
  ["arrow".data, "help".data, "appstarting".data, "wait".data,
   "crosshair".data, "ibeam".data, "pen".data, "no".data, "ns".data,
   "we".data, "nwse".data, "nese".data, "move".data, "uparrow".data,
   "hand".data]

/-- Resolution of one stripped nonempty scheme list entry in the body of
parse cursor mapping: take the final backslash segment, strip it; an empty
segment fails; a segment containing a percent sign resolves through the
Strings table by the extracted variable name; otherwise the segment must end
in .cur or .ani. -/
def resolveSeg (vars : List (List Char × List Char)) (part : List Char) :
    Option (List Char) :=
  let lastSeg := pyStrip ((pySplit '\\' part).getLastD [])
  if lastSeg = [] then none
  else if lastSeg.contains '%' then
    match findVar lastSeg with
    | some v => dictLookup (pyLower v) vars
    | none => none
  else if List.isSuffixOf (".cur".data) (pyLower lastSeg)
       ∨ List.isSuffixOf (".ani".data) (pyLower lastSeg) then
    some lastSeg
  else none

/-- The loop of parse cursor mapping: entries stripped, empty entries skipped
before the bound check, the loop broken once the ordinal index reaches the
length of the role table, and the ordinal index advanced only when an entry
resolves. The resulting association list is the cursor files dict; its keys
are pairwise distinct because each ordinal slot is assigned at most once. -/
def mappingLoop (vars : List (List Char × List Char)) :
    List (List Char) → Nat → List (List Char × List Char)
  | [], _ => []
  | p :: ps, idx =>
    let part := pyStrip p
    if part = [] then mappingLoop vars ps idx
    else if WIN_CURSOR_ORDER.length ≤ idx then []
    else
      match resolveSeg vars part with
      | some v => (WIN_CURSOR_ORDER.getD idx [], v) :: mappingLoop vars ps (idx + 1)
      | none => mappingLoop vars ps idx

/-- Model of INFParser parse cursor mapping. -/
def parseCursorMapping (schemeReg : List Char)
    (vars : List (List Char × List Char)) : List (List Char × List Char) :=
  mappingLoop vars (pySplit ',' schemeReg) 0

/-- The scan over the lines of one AddReg section in extract scheme reg: the
first stripped line that starts with hkcu, mentions the three scheme registry
path components, and carries at least two quoted tokens yields the second
quoted token (theme value) and the last quoted token (cursor list). -/
def findSchemeLine : List (List Char) → Option (List Char × List Char)
  | [] => none
  | line :: rest =>
    let l := pyStrip line
    if List.isPrefixOf ("hkcu".data) (pyLower l) then
      if containsSub ("control panel".data) (pyLower l)
         && containsSub ("cursors".data) (pyLower l)
         && containsSub ("schemes".data) (pyLower l) then
        let parts := findQuoted l
        if parts.length < 2 then findSchemeLine rest
        else some (parts.getD 1 [], parts.getLastD [])
      else findSchemeLine rest
    else findSchemeLine rest

/-- Model of INFParser extract scheme reg: try each AddReg section in listed
order; a section that is missing or has no matching registry line is passed
over. -/
def extractSchemeReg (content : List Char) :
    List (List Char) → Option (List Char × List Char)
  | [] => none
  | name :: rest =>
    match extractSection content name with
    | none => extractSchemeReg content rest
    | some sec =>
      match findSchemeLine (pySplit '\n' sec) with
      | some pr => some pr
      | none => extractSchemeReg content rest

/-- The placeholder theme name used by the parser; gettext is the identity in
the untranslated locale. -/
def untitledTheme : List Char := "Untitled Theme".data

/-- The theme name logic of parse: an absent or empty theme value falls back
to the placeholder; a value containing a percent sign is resolved through the
Strings table and falls back to the placeholder when the variable is absent
or malformed; otherwise the value itself is the theme name. -/
def themeNameOf (tv : Option (List Char))
    (vars : List (List Char × List Char)) : List Char :=
  match tv with
  | none => untitledTheme
  | some t =>
    if t = [] then untitledTheme
    else if t.contains '%' then
      match findVar t with
      | some v =>
        match dictLookup (pyLower v) vars with
        | some s => s
        | none => untitledTheme
      | none => untitledTheme
    else t

/-- Model of INFParser parse on decoded descriptor text: lowercase the whole
content, extract the Strings section, the AddReg section list and the scheme
registry line, then build the theme name and the role mapping. An empty
cursor list is falsy in Python and yields an empty mapping, which agrees
with running the mapping loop on the empty text. -/
def parseINF (text : List Char) :
    List Char × List (List Char × List Char) :=
  let content := pyLower text
  let stringsSection := (extractSection content ("strings".data)).getD []
  let addreg := getAddregSections content
  let tvcl := extractSchemeReg content addreg
  let stringVars := parseStrings stringsSection
  let themeName := themeNameOf (tvcl.map Prod.fst) stringVars
  let cursorFiles :=
    match tvcl with
    | some (_, sr) => parseCursorMapping sr stringVars
    | none => []
  (themeName, cursorFiles)

/-! ### Positional role assignment -/

/-- The successfully resolved entries of a comma separated scheme list, in
order: each entry is stripped, empty entries disappear, and the remaining
entries resolve exactly as in the loop body of parse cursor mapping. This is
the reading of the specification sentence about positional assignment. -/
def resolvedEntries (vars : List (List Char × List Char))
    (parts : List (List Char)) : List (List Char) :=
  parts.filterMap (fun p =>
    let part := pyStrip p
    if part = [] then none else resolveSeg vars part)

theorem mappingLoop_eq_zip (vars : List (List Char × List Char))
    (parts : List (List Char)) :
    ∀ idx, mappingLoop vars parts idx =
      (WIN_CURSOR_ORDER.drop idx).zip (resolvedEntries vars parts) := by
  induction parts with
  | nil =>
    intro idx
    simp [mappingLoop, resolvedEntries]
  | cons p ps ih =>
    intro idx
    by_cases h1 : pyStrip p = []
    · have e1 : mappingLoop vars (p :: ps) idx = mappingLoop vars ps idx := by
        simp [mappingLoop, h1]
      have e2 : resolvedEntries vars (p :: ps) = resolvedEntries vars ps := by
        simp [resolvedEntries, h1]
      rw [e1, e2, ih idx]
    · by_cases h2 : WIN_CURSOR_ORDER.length ≤ idx
      · have e1 : mappingLoop vars (p :: ps) idx = [] := by
          simp [mappingLoop, h1, h2]
        have e3 : WIN_CURSOR_ORDER.drop idx = [] := List.drop_eq_nil_of_le h2
        rw [e1, e3]
        simp
      · push_neg at h2
        cases hr : resolveSeg vars (pyStrip p) with
        | none =>
          have e1 : mappingLoop vars (p :: ps) idx = mappingLoop vars ps idx := by
            simp [mappingLoop, h1, hr, Nat.not_le.mpr h2]
          have e2 : resolvedEntries vars (p :: ps) = resolvedEntries vars ps := by
            simp [resolvedEntries, h1, hr]
          rw [e1, e2, ih idx]
        | some v =>
          have e1 : mappingLoop vars (p :: ps) idx =
              (WIN_CURSOR_ORDER.getD idx [], v) :: mappingLoop vars ps (idx + 1) := by
            simp [mappingLoop, h1, hr, Nat.not_le.mpr h2]
          have e2 : resolvedEntries vars (p :: ps) = v :: resolvedEntries vars ps := by
            simp [resolvedEntries, h1, hr]
          have e3 : WIN_CURSOR_ORDER.drop idx =
              WIN_CURSOR_ORDER.getD idx [] :: WIN_CURSOR_ORDER.drop (idx + 1) := by
            rw [List.drop_eq_getElem_cons h2]
            congr 1
            simp [List.getD, List.getElem?_eq_getElem h2]
          rw [e1, e2, e3]
          simp only [List.zip_cons_cons]
          rw [ih (idx + 1)]

theorem zip_map_fst_take {A B : Type} (a : List A) (b : List B) :
    (a.zip b).map Prod.fst = a.take (a.zip b).length := by
  induction a generalizing b with
  | nil => simp
  | cons x xs ih =>
    cases b with
    | nil => simp
    | cons y ys => simp [List.zip_cons_cons, ih ys]

/-- Claim C2: role assignment is strictly positional. The mapping produced by
parse cursor mapping is exactly the positional pairing of the fixed 15 role
ordinal table with the ordered list of successfully resolved entries; failed
entries are absent from that list and so consume no role slot, and the zip
truncates at the end of the role table, which is the early loop exit. -/
theorem parseCursorMapping_positional (schemeReg : List Char)
    (vars : List (List Char × List Char)) :
    parseCursorMapping schemeReg vars =
      WIN_CURSOR_ORDER.zip (resolvedEntries vars (pySplit ',' schemeReg)) := by
  have h := mappingLoop_eq_zip vars (pySplit ',' schemeReg) 0
  simpa [parseCursorMapping] using h

/-- Claim C9: the set of roles present in a parsed role mapping is always a
contiguous leading segment of the fixed 15 role ordinal table; a gap such as
a mapping with the first and fourth roles but not the second is impossible. -/
theorem parseCursorMapping_roles_contiguous (schemeReg : List Char)
    (vars : List (List Char × List Char)) :
    (parseCursorMapping schemeReg vars).map Prod.fst =
      WIN_CURSOR_ORDER.take (parseCursorMapping schemeReg vars).length := by
  have h := mappingLoop_eq_zip vars (pySplit ',' schemeReg) 0
  simp only [List.drop_zero] at h
  unfold parseCursorMapping
  rw [h]
  exact zip_map_fst_take _ _

/-! ### The concrete descriptor scenario of claim C3 -/

/-- The descriptor text of claim C3: a DefaultInstall section whose AddReg
names Scheme.Reg, and a Scheme.Reg section with the scheme registry line
carrying the theme name and the cursor list with two empty entries. -/
def infC3 : List Char :=
  ("[DefaultInstall]\nAddReg = Scheme.Reg\n\n[Scheme.Reg]\nHKCU,\"Control Panel\\Cursors\\Schemes\",\"My Theme\",\"arrow.cur,,,wait.cur\"\n").data

/-- Claim C3 counterexample: on the descriptor of the claim the parser does
not return the claimed pair. The content is lowercased before analysis, so
the theme name comes out as my theme rather than My Theme, and the two empty
entries are skipped without consuming role slots, so wait.cur is bound to the
second role help rather than to the fourth role wait. -/
theorem parseINF_scenario_counterexample :
    ¬ ((parseINF infC3).1 = "My Theme".data ∧
       (parseINF infC3).2 =
         [("arrow".data, "arrow.cur".data), ("wait".data, "wait.cur".data)]) := by
  decide

/-- Claim C3 (amended): the descriptor of the claim yields the lowercased
theme name my theme, and the mapping binds arrow.cur to the first role arrow
and wait.cur to the second role help, the empty entries consuming no slot. -/
theorem parseINF_scenario_amended :
    parseINF infC3 =
      ("my theme".data,
       [("arrow".data, "arrow.cur".data), ("help".data, "wait.cur".data)]) := by
  decide

/-! ### Lowercase invariance: claim C10 infrastructure -/

theorem pyLowerChar_fix_of_pairs : ∀ q ∈ lowerPairs, pyLowerChar q.2 = q.2 := by
  decide

theorem pyLowerChar_idem (c : Char) :
    pyLowerChar (pyLowerChar c) = pyLowerChar c := by
  cases h : lowerPairs.find? (fun p => p.1 = c) with
  | none =>
    have e : pyLowerChar c = c := by
      unfold pyLowerChar
      rw [h]
      rfl
    rw [e]
    exact e
  | some q =>
    have e : pyLowerChar c = q.2 := by
      unfold pyLowerChar
      rw [h]
      rfl
    rw [e]
    exact pyLowerChar_fix_of_pairs q (List.mem_of_find?_eq_some h)

/-- A text is lowered when every character is a fixed point of the lowercase
map. -/
def Lowered (l : List Char) : Prop := ∀ c ∈ l, pyLowerChar c = c

theorem lowered_pyLower (l : List Char) : Lowered (pyLower l) := by
  intro c hc
  obtain ⟨d, _, rfl⟩ := List.mem_map.mp hc
  exact pyLowerChar_idem d

theorem Lowered.mono {l m : List Char} (hsub : ∀ c ∈ l, c ∈ m)
    (hm : Lowered m) : Lowered l :=
  fun c hc => hm c (hsub c hc)

theorem Lowered.eq_pyLower {l : List Char} (h : Lowered l) : pyLower l = l :=
  (List.map_congr_left h).trans (List.map_id l)

theorem lowered_nil : Lowered [] := by
  intro c hc
  simp at hc

theorem pyStripWith_subset (p : Char → Bool) (l : List Char) :
    ∀ c ∈ pyStripWith p l, c ∈ l := by
  intro c hc
  unfold pyStripWith at hc
  rw [List.mem_reverse] at hc
  have h1 := (List.dropWhile_sublist p).subset hc
  rw [List.mem_reverse] at h1
  exact (List.dropWhile_sublist p).subset h1

theorem pySplit_subset (sep : Char) :
    ∀ (l : List Char), ∀ piece ∈ pySplit sep l, ∀ c ∈ piece, c ∈ l := by
  intro l
  induction l with
  | nil =>
    intro piece hp c hc
    simp only [pySplit, List.mem_singleton] at hp
    subst hp
    simp at hc
  | cons a rest ih =>
    intro piece hp c hc
    cases hm : pySplit sep rest with
    | nil =>
      have := ih piece
      rw [hm] at this
      have e : pySplit sep (a :: rest) = [[]] := by
        simp [pySplit, hm]
      rw [e, List.mem_singleton] at hp
      subst hp
      simp at hc
    | cons h t =>
      by_cases ha : a = sep
      · have e : pySplit sep (a :: rest) = [] :: h :: t := by
          simp [pySplit, hm, ha]
        rw [e] at hp
        rcases List.mem_cons.mp hp with rfl | hp2
        · simp at hc
        · have : piece ∈ pySplit sep rest := by
            rw [hm]
            exact hp2
          exact List.mem_cons_of_mem a (ih piece this c hc)
      · have e : pySplit sep (a :: rest) = (a :: h) :: t := by
          simp [pySplit, hm, ha]
        rw [e] at hp
        rcases List.mem_cons.mp hp with rfl | hp2
        · rcases List.mem_cons.mp hc with rfl | hc2
          · exact List.mem_cons_self _ _
          · have : h ∈ pySplit sep rest := by
              rw [hm]
              exact List.mem_cons_self h t
            exact List.mem_cons_of_mem a (ih h this c hc2)
        · have : piece ∈ pySplit sep rest := by
            rw [hm]
            exact List.mem_cons_of_mem h hp2
          exact List.mem_cons_of_mem a (ih piece this c hc)

theorem afterFirst_subset (pat : List Char) :
    ∀ (l : List Char) {r : List Char}, afterFirst pat l = some r →
      ∀ c ∈ r, c ∈ l := by
  intro l
  induction l with
  | nil =>
    intro r h c hc
    by_cases hp : List.isPrefixOf pat ([] : List Char)
    · simp only [afterFirst, if_pos hp] at h
      cases h
      simp at hc
    · simp only [afterFirst, if_neg hp] at h
      exact Option.noConfusion h
  | cons a rest ih =>
    intro r h c hc
    by_cases hp : List.isPrefixOf pat (a :: rest)
    · simp only [afterFirst, if_pos hp] at h
      cases h
      exact List.drop_subset _ _ hc
    · simp only [afterFirst, if_neg hp] at h
      exact List.mem_cons_of_mem a (ih h c hc)

theorem sectionBody_subset :
    ∀ (l : List Char), ∀ c ∈ sectionBody l, c ∈ l := by
  intro l
  induction l with
  | nil =>
    intro c hc
    simp [sectionBody] at hc
  | cons a rest ih =>
    intro c hc
    by_cases hp : List.isPrefixOf ['\n', '['] (a :: rest)
    · simp only [sectionBody, if_pos hp] at hc
      simp at hc
    · simp only [sectionBody, if_neg hp] at hc
      rcases List.mem_cons.mp hc with rfl | hc2
      · exact List.mem_cons_self c rest
      · exact List.mem_cons_of_mem a (ih c hc2)

theorem extractSection_subset {content name sec : List Char}
    (h : extractSection content name = some sec) : ∀ c ∈ sec, c ∈ content := by
  unfold extractSection at h
  cases ha : afterFirst ('[' :: (name ++ [']'])) content with
  | none =>
    rw [ha] at h
    exact Option.noConfusion h
  | some tail =>
    rw [ha] at h
    cases h
    intro c hc
    have h1 := pyStripWith_subset pyIsSpace _ c hc
    have h2 := sectionBody_subset tail c h1
    exact afterFirst_subset _ content ha c h2

theorem getD_mem_or {α : Type} (l : List α) (i : Nat) (d : α) :
    l.getD i d ∈ l ∨ l.getD i d = d := by
  by_cases h : i < l.length
  · left
    rw [List.getD_eq_getElem?_getD, List.getElem?_eq_getElem h]
    exact List.getElem_mem h
  · right
    rw [List.getD_eq_getElem?_getD, List.getElem?_eq_none (by omega)]
    rfl

theorem getLastD_mem_or {α : Type} :
    ∀ (l : List α) (d : α), l.getLastD d ∈ l ∨ l.getLastD d = d
  | [], d => Or.inr rfl
  | a :: t, d => by
    rw [List.getLastD_cons]
    rcases getLastD_mem_or t a with h | h
    · exact Or.inl (List.mem_cons_of_mem a h)
    · rw [h]
      exact Or.inl (List.mem_cons_self a t)

theorem matchContent_subset (l : List Char) :
    ∀ {g r : List Char}, matchContent l = some (g, r) →
      (∀ c ∈ g, c ∈ l ∨ c = '"') ∧ (∀ c ∈ r, c ∈ l) := by
  induction l using matchContent.induct with
  | case1 =>
    intro g r h
    simp [matchContent] at h
  | case2 rest2 g2 r2 hm ih =>
    intro g r h
    simp only [matchContent, hm] at h
    cases h
    obtain ⟨ihg, ihr⟩ := ih hm
    constructor
    · intro c hc
      rcases List.mem_cons.mp hc with rfl | hc2
      · exact Or.inr rfl
      · rcases List.mem_cons.mp hc2 with rfl | hc3
        · exact Or.inr rfl
        · rcases ihg c hc3 with h4 | h4
          · exact Or.inl (List.mem_cons_of_mem _ (List.mem_cons_of_mem _ h4))
          · exact Or.inr h4
    · intro c hc
      exact List.mem_cons_of_mem _ (List.mem_cons_of_mem _ (ihr c hc))
  | case3 rest2 hm ih =>
    intro g r h
    simp only [matchContent, hm] at h
    cases h
    constructor
    · intro c hc
      simp at hc
    · intro c hc
      rcases List.mem_cons.mp hc with rfl | hc2
      · exact List.mem_cons_self _ _
      · exact List.mem_cons_of_mem _ (List.mem_cons_of_mem _ hc2)
  | case4 rest hside =>
    intro g r h
    rcases rest with _ | ⟨c2, t⟩
    · simp only [matchContent] at h
      cases h
      constructor
      · intro c hc
        simp at hc
      · intro c hc
        simp at hc
    · have hc2 : ¬ (c2 = '"') := fun he => hside t (by rw [he])
      simp only [matchContent, hc2] at h
      cases h
      constructor
      · intro c hc
        simp at hc
      · intro c hc
        exact List.mem_cons_of_mem _ hc
  | case5 c0 rest hside hq g2 r2 hm ih =>
    intro g r h
    have hc0 : ¬ (c0 = '"') := fun he => hq he
    simp only [matchContent, hc0, hm] at h
    cases h
    obtain ⟨ihg, ihr⟩ := ih hm
    constructor
    · intro c hc
      rcases List.mem_cons.mp hc with rfl | hc2
      · exact Or.inl (List.mem_cons_self _ _)
      · rcases ihg c hc2 with h4 | h4
        · exact Or.inl (List.mem_cons_of_mem _ h4)
        · exact Or.inr h4
    · intro c hc
      exact List.mem_cons_of_mem _ (ihr c hc)
  | case6 c0 rest hside hq hm ih =>
    intro g r h
    have hc0 : ¬ (c0 = '"') := fun he => hq he
    simp only [matchContent, hc0, hm] at h
    exact Option.noConfusion h

theorem findQuotedFuel_subset :
    ∀ (fuel : Nat) (l : List Char), ∀ g ∈ findQuotedFuel fuel l,
      ∀ c ∈ g, c ∈ l ∨ c = '"' := by
  intro fuel
  induction fuel with
  | zero =>
    intro l g hg
    simp [findQuotedFuel] at hg
  | succ n ih =>
    intro l g hg c hc
    cases l with
    | nil => simp [findQuotedFuel] at hg
    | cons a rest =>
      by_cases ha : a = '"'
      · subst ha
        cases hm : matchContent rest with
        | some p =>
          obtain ⟨g2, r⟩ := p
          have e : findQuotedFuel (n + 1) ('"' :: rest) = g2 :: findQuotedFuel n r := by
            simp [findQuotedFuel, hm]
          rw [e] at hg
          obtain ⟨hmg, hmr⟩ := matchContent_subset rest hm
          rcases List.mem_cons.mp hg with rfl | hg2
          · rcases hmg c hc with h4 | h4
            · exact Or.inl (List.mem_cons_of_mem _ h4)
            · exact Or.inr h4
          · rcases ih r g hg2 c hc with h4 | h4
            · exact Or.inl (List.mem_cons_of_mem _ (hmr c h4))
            · exact Or.inr h4
        | none =>
          have e : findQuotedFuel (n + 1) ('"' :: rest) = findQuotedFuel n rest := by
            simp [findQuotedFuel, hm]
          rw [e] at hg
          rcases ih rest g hg c hc with h4 | h4
          · exact Or.inl (List.mem_cons_of_mem _ h4)
          · exact Or.inr h4
      · have e : findQuotedFuel (n + 1) (a :: rest) = findQuotedFuel n rest := by
          simp [findQuotedFuel, ha]
        rw [e] at hg
        rcases ih rest g hg c hc with h4 | h4
        · exact Or.inl (List.mem_cons_of_mem _ h4)
        · exact Or.inr h4

theorem findQuoted_lowered {l : List Char} (hl : Lowered l) :
    ∀ g ∈ findQuoted l, Lowered g := by
  intro g hg c hc
  rcases findQuotedFuel_subset l.length l g hg c hc with h | h
  · exact hl c h
  · rw [h]
    decide

theorem parseStringsLine_subset {line k v : List Char}
    (h : parseStringsLine line = some (k, v)) : ∀ c ∈ v, c ∈ line := by
  have hsub : ∀ c2 : Char,
      c2 ∈ (line.drop (line.takeWhile isWordChar).length).dropWhile pyIsSpace →
      c2 ∈ line := by
    intro c2 hc2
    exact List.drop_subset _ _ ((List.dropWhile_sublist _).subset hc2)
  simp only [parseStringsLine] at h
  split at h
  · exact Option.noConfusion h
  · split at h
    · rename_i r2 heq1
      split at h
      · rename_i r4 heq2
        split at h
        · exact Option.noConfusion h
        · cases h
          intro c hc
          have h1 : c ∈ r4 := (List.takeWhile_sublist _).subset hc
          have h2 : c ∈ r2.dropWhile pyIsSpace := by
            rw [heq2]
            exact List.mem_cons_of_mem _ h1
          have h3 : c ∈ r2 := (List.dropWhile_sublist _).subset h2
          refine hsub c ?_
          rw [heq1]
          exact List.mem_cons_of_mem _ h3
      · split at h
        · exact Option.noConfusion h
        · cases h
          intro c hc
          have h1 : c ∈ r2.dropWhile pyIsSpace := (List.takeWhile_sublist _).subset hc
          have h3 : c ∈ r2 := (List.dropWhile_sublist _).subset h1
          refine hsub c ?_
          rw [heq1]
          exact List.mem_cons_of_mem _ h3
    · exact Option.noConfusion h

theorem dictInsert_values {α : Type} (P : α → Prop) (k : List Char) (v : α)
    (hv : P v) :
    ∀ (d : List (List Char × α)), (∀ p ∈ d, P p.2) →
      ∀ p ∈ dictInsert k v d, P p.2 := by
  intro d
  induction d with
  | nil =>
    intro _ p hp
    simp only [dictInsert, List.mem_singleton] at hp
    subst hp
    exact hv
  | cons q t ih =>
    intro hd p hp
    obtain ⟨k2, v2⟩ := q
    by_cases hk : k2 = k
    · simp only [dictInsert, if_pos hk] at hp
      rcases List.mem_cons.mp hp with rfl | hp2
      · exact hv
      · exact hd _ (List.mem_cons_of_mem _ hp2)
    · simp only [dictInsert, if_neg hk] at hp
      rcases List.mem_cons.mp hp with rfl | hp2
      · exact hd _ (List.mem_cons_self _ _)
      · exact ih (fun p2 hp2b => hd p2 (List.mem_cons_of_mem _ hp2b)) p hp2

theorem dictLookup_values {α : Type} (P : α → Prop) (k : List Char)
    (d : List (List Char × α)) (hd : ∀ p ∈ d, P p.2) {v : α}
    (h : dictLookup k d = some v) : P v := by
  unfold dictLookup at h
  cases hf : List.find? (fun p => p.1 = k) d with
  | none =>
    rw [hf] at h
    exact Option.noConfusion h
  | some p =>
    rw [hf] at h
    cases h
    exact hd p (List.mem_of_find?_eq_some hf)

theorem parseStringsLoop_values :
    ∀ (lines : List (List Char)), (∀ l ∈ lines, Lowered l) →
      ∀ (d : List (List Char × List Char)), (∀ p ∈ d, Lowered p.2) →
        ∀ p ∈ parseStringsLoop d lines, Lowered p.2 := by
  intro lines
  induction lines with
  | nil =>
    intro _ d hd p hp
    exact hd p hp
  | cons line rest ih =>
    intro hlines d hd p hp
    have hrest : ∀ l ∈ rest, Lowered l := fun l hl =>
      hlines l (List.mem_cons_of_mem _ hl)
    have hline : Lowered (pyStrip line) :=
      Lowered.mono (pyStripWith_subset _ _) (hlines line (List.mem_cons_self _ _))
    by_cases hskip : pyStrip line = [] ∨ (pyStrip line).headD ' ' = ';'
    · have e : parseStringsLoop d (line :: rest) = parseStringsLoop d rest := by
        simp only [parseStringsLoop]
        rw [if_pos hskip]
      rw [e] at hp
      exact ih hrest d hd p hp
    · cases hm : parseStringsLine (pyStrip line) with
      | some kv =>
        obtain ⟨k, v⟩ := kv
        have e : parseStringsLoop d (line :: rest) =
            parseStringsLoop
              (dictInsert (pyLower k)
                (pyStrip (pyStripWith (fun c => c = '"') v)) d) rest := by
          simp only [parseStringsLoop]
          rw [if_neg hskip, hm]
        rw [e] at hp
        have hvLow : Lowered (pyStrip (pyStripWith (fun c => c = '"') v)) := by
          intro c hc
          have h1 := pyStripWith_subset pyIsSpace _ c hc
          have h2 := pyStripWith_subset (fun c => c = '"') _ c h1
          exact hline c (parseStringsLine_subset hm c h2)
        exact ih hrest _ (dictInsert_values Lowered _ _ hvLow d hd) p hp
      | none =>
        have e : parseStringsLoop d (line :: rest) = parseStringsLoop d rest := by
          simp only [parseStringsLoop]
          rw [if_neg hskip, hm]
        rw [e] at hp
        exact ih hrest d hd p hp

theorem resolveSeg_lowered {vars : List (List Char × List Char)}
    {part v : List Char} (hpart : Lowered part)
    (hvars : ∀ p ∈ vars, Lowered p.2)
    (h : resolveSeg vars part = some v) : Lowered v := by
  have hseg : Lowered (pyStrip ((pySplit '\\' part).getLastD [])) := by
    intro c hc
    have h1 := pyStripWith_subset pyIsSpace _ c hc
    rcases getLastD_mem_or (pySplit '\\' part) [] with hm | hm
    · exact hpart c (pySplit_subset '\\' part _ hm c h1)
    · rw [hm] at h1
      simp at h1
  simp only [resolveSeg] at h
  split at h
  · exact Option.noConfusion h
  · split at h
    · split at h
      · exact dictLookup_values Lowered _ vars hvars h
      · exact Option.noConfusion h
    · split at h
      · cases h
        exact hseg
      · exact Option.noConfusion h

theorem mappingLoop_values {vars : List (List Char × List Char)}
    (hvars : ∀ p ∈ vars, Lowered p.2) :
    ∀ (parts : List (List Char)), (∀ q ∈ parts, Lowered q) →
      ∀ (idx : Nat), ∀ pr ∈ mappingLoop vars parts idx, Lowered pr.2 := by
  intro parts
  induction parts with
  | nil =>
    intro _ idx pr hpr
    simp [mappingLoop] at hpr
  | cons p ps ih =>
    intro hparts idx pr hpr
    have hps : ∀ q ∈ ps, Lowered q := fun q hq =>
      hparts q (List.mem_cons_of_mem _ hq)
    have hp : Lowered (pyStrip p) :=
      Lowered.mono (pyStripWith_subset _ _) (hparts p (List.mem_cons_self _ _))
    by_cases h1 : pyStrip p = []
    · have e : mappingLoop vars (p :: ps) idx = mappingLoop vars ps idx := by
        simp [mappingLoop, h1]
      rw [e] at hpr
      exact ih hps idx pr hpr
    · by_cases h2 : WIN_CURSOR_ORDER.length ≤ idx
      · have e : mappingLoop vars (p :: ps) idx = [] := by
          simp [mappingLoop, h1, h2]
        rw [e] at hpr
        simp at hpr
      · cases hr : resolveSeg vars (pyStrip p) with
        | some v =>
          have e : mappingLoop vars (p :: ps) idx =
              (WIN_CURSOR_ORDER.getD idx [], v) :: mappingLoop vars ps (idx + 1) := by
            simp [mappingLoop, h1, hr, h2]
          rw [e] at hpr
          rcases List.mem_cons.mp hpr with rfl | hpr2
          · exact resolveSeg_lowered hp hvars hr
          · exact ih hps (idx + 1) pr hpr2
        | none =>
          have e : mappingLoop vars (p :: ps) idx = mappingLoop vars ps idx := by
            simp [mappingLoop, h1, hr, h2]
          rw [e] at hpr
          exact ih hps idx pr hpr

theorem findSchemeLine_lowered :
    ∀ (lines : List (List Char)), (∀ l ∈ lines, Lowered l) →
      ∀ {tv cl : List Char}, findSchemeLine lines = some (tv, cl) →
        Lowered tv ∧ Lowered cl := by
  intro lines
  induction lines with
  | nil =>
    intro _ tv cl h
    simp [findSchemeLine] at h
  | cons line rest ih =>
    intro hl tv cl h
    have hrest : ∀ l ∈ rest, Lowered l := fun l h2 =>
      hl l (List.mem_cons_of_mem _ h2)
    have hline : Lowered (pyStrip line) :=
      Lowered.mono (pyStripWith_subset _ _) (hl line (List.mem_cons_self _ _))
    simp only [findSchemeLine] at h
    split at h
    · split at h
      · split at h
        · exact ih hrest h
        · cases h
          have hparts := findQuoted_lowered hline
          constructor
          · rcases getD_mem_or (findQuoted (pyStrip line)) 1 [] with hm | hm
            · exact hparts _ hm
            · rw [hm]
              exact lowered_nil
          · rcases getLastD_mem_or (findQuoted (pyStrip line)) [] with hm | hm
            · exact hparts _ hm
            · rw [hm]
              exact lowered_nil
      · exact ih hrest h
    · exact ih hrest h

theorem extractSchemeReg_lowered {content : List Char} (hc : Lowered content) :
    ∀ (names : List (List Char)) {tv cl : List Char},
      extractSchemeReg content names = some (tv, cl) →
        Lowered tv ∧ Lowered cl := by
  intro names
  induction names with
  | nil =>
    intro tv cl h
    simp [extractSchemeReg] at h
  | cons name rest ih =>
    intro tv cl h
    cases hs : extractSection content name with
    | none =>
      have e : extractSchemeReg content (name :: rest) =
          extractSchemeReg content rest := by
        simp [extractSchemeReg, hs]
      rw [e] at h
      exact ih h
    | some sec =>
      have hsec : Lowered sec := Lowered.mono (extractSection_subset hs) hc
      have hlines : ∀ l ∈ pySplit '\n' sec, Lowered l := fun l hlm =>
        Lowered.mono (pySplit_subset '\n' sec l hlm) hsec
      cases hline : findSchemeLine (pySplit '\n' sec) with
      | some pr2 =>
        obtain ⟨tv2, cl2⟩ := pr2
        have e : extractSchemeReg content (name :: rest) = some (tv2, cl2) := by
          simp [extractSchemeReg, hs, hline]
        rw [e] at h
        cases h
        exact findSchemeLine_lowered (pySplit '\n' sec) hlines hline
      | none =>
        have e : extractSchemeReg content (name :: rest) =
            extractSchemeReg content rest := by
          simp [extractSchemeReg, hs, hline]
        rw [e] at h
        exact ih h

theorem themeNameOf_lowered {tv : Option (List Char)}
    {vars : List (List Char × List Char)}
    (htv : ∀ t, tv = some t → Lowered t)
    (hvars : ∀ p ∈ vars, Lowered p.2) :
    themeNameOf tv vars = untitledTheme ∨ Lowered (themeNameOf tv vars) := by
  cases tv with
  | none => exact Or.inl rfl
  | some t =>
    have ht := htv t rfl
    simp only [themeNameOf]
    split
    · exact Or.inl rfl
    · split
      · split
        · split
          · rename_i s heq
            exact Or.inr (dictLookup_values Lowered _ vars hvars heq)
          · exact Or.inl rfl
        · exact Or.inl rfl
      · exact Or.inr ht

/-- Claim C10: because the whole descriptor text is lowercased before any
analysis, every value the parser returns is lowercase: the theme name, unless
it is the fixed placeholder, equals its own lowercase form whether it was
taken from the second quoted token or resolved through the Strings table, and
every filename stored in the role mapping equals its own lowercase form. -/
theorem parseINF_lowercase (text : List Char) :
    ((parseINF text).1 = untitledTheme ∨
      pyLower (parseINF text).1 = (parseINF text).1) ∧
    ∀ pr ∈ (parseINF text).2, pyLower pr.2 = pr.2 := by
  have hcontent : Lowered (pyLower text) := lowered_pyLower text
  have hsec : Lowered ((extractSection (pyLower text) ("strings".data)).getD []) := by
    cases hs : extractSection (pyLower text) ("strings".data) with
    | none => exact lowered_nil
    | some sec =>
      simp only [Option.getD_some]
      exact Lowered.mono (extractSection_subset hs) hcontent
  have hvars : ∀ p ∈ parseStrings
      ((extractSection (pyLower text) ("strings".data)).getD []), Lowered p.2 := by
    intro p hp
    unfold parseStrings at hp
    exact parseStringsLoop_values _
      (fun l hl => Lowered.mono (pySplit_subset _ _ l hl) hsec) [] (by simp) p hp
  cases htv : extractSchemeReg (pyLower text) (getAddregSections (pyLower text)) with
  | none =>
    constructor
    · left
      simp [parseINF, htv, themeNameOf]
    · intro pr hpr
      simp [parseINF, htv] at hpr
  | some pr0 =>
    obtain ⟨tv, cl⟩ := pr0
    obtain ⟨htvL, hclL⟩ := extractSchemeReg_lowered hcontent _ htv
    have e1 : (parseINF text).1 = themeNameOf (some tv)
        (parseStrings ((extractSection (pyLower text) ("strings".data)).getD [])) := by
      simp [parseINF, htv]
    have e2 : (parseINF text).2 = parseCursorMapping cl
        (parseStrings ((extractSection (pyLower text) ("strings".data)).getD [])) := by
      simp [parseINF, htv]
    constructor
    · rw [e1]
      rcases themeNameOf_lowered
          (fun (t : List Char) (ht : some tv = some t) => by
            have h3 := Option.some.inj ht
            subst h3
            exact htvL) hvars with
        hcase | hcase
      · exact Or.inl hcase
      · exact Or.inr hcase.eq_pyLower
    · intro pr hpr
      rw [e2] at hpr
      unfold parseCursorMapping at hpr
      have hq : ∀ q ∈ pySplit ',' cl, Lowered q := fun q hq2 =>
        Lowered.mono (pySplit_subset _ _ q hq2) hclL
      exact (mappingLoop_values hvars _ hq 0 pr hpr).eq_pyLower

/-!
### Part 2: the frame synthesis pipeline of convert_cursor (src/converter.py)

The codec, the scale filter, the shadow filter and the super resolution
inference are external collaborators; they appear as abstract parameters.
Because the code re-decodes the raw blob freshly for every size and every
frame, and decoding a fixed blob is a pure operation of the external codec,
the decoded frame list of the source blob is itself the input of the model.
Pixel data is an abstract type Pix; an image carries its pixel payload, its
pixel width and height (the array shape used by the code), its hotspot as a
pair of integers, and its nominal size tag. Int division by q.den truncates
toward zero exactly like the Python int call on a nonnegative value and in
general like int on any float, because Int division in Lean is T division.
-/

/-- One bitmap of a cursor frame: abstract pixels, pixel width and height,
hotspot and nominal size tag, mirroring win2xcur CursorImage. -/
structure CImage (Pix : Type) where
  pix : Pix
  w : Nat
  h : Nat
  hot : Int × Int
  nominal : Nat
deriving DecidableEq

/-- One animation frame: an image list and a delay, mirroring win2xcur
CursorFrame. -/
structure CFrame (Pix : Type) where
  images : List (CImage Pix)
  delay : Nat
deriving DecidableEq

/-- All nominal size tags present in the decoded source, with multiplicity;
the code forms the set original_sizes of these values and only asks for
membership and for the maximum, which agree between list and set. -/
def allNominals {Pix : Type} (src : List (CFrame Pix)) : List Nat :=
  src.flatMap (fun fr => fr.images.map (fun i => i.nominal))

/-- The maximal nominal size of the source; the code evaluates max only when
the size collection is nonempty, where the fold with seed zero agrees with
the Python max. -/
def maxNominal {Pix : Type} (src : List (CFrame Pix)) : Nat :=
  (allNominals src).foldr max 0

/-- The already present size branch of convert_cursor: per original frame
keep only the images tagged with the target size, and drop frames with no
matching image. -/
def presentFrames {Pix : Type} (src : List (CFrame Pix)) (target : Nat) :
    List (CFrame Pix) :=
  src.filterMap (fun fr =>
    let matching := fr.images.filter (fun i => i.nominal == target)
    if matching.isEmpty then none else some ⟨matching, fr.delay⟩)

/-- The source image choice of the fallback scaling branch: the image tagged
with the global maximum size, else the image tagged with the local frame
maximum, else the first image; none only when the frame has no image. -/
def pickSource {Pix : Type} (fr : CFrame Pix) (orig : Nat) :
    Option (CImage Pix) :=
  match fr.images.find? (fun i => i.nominal == orig) with
  | some img => some img
  | none =>
    match fr.images with
    | [] => none
    | i0 :: _ =>
      let maxIn := (fr.images.map (fun i => i.nominal)).foldr max 0
      some ((fr.images.find? (fun i => i.nominal == maxIn)).getD i0)

/-- The fallback scaling branch of convert_cursor: one singleton frame per
original frame, the chosen image run through the abstract scale filter at
ratio target over maximal original size, and the nominal tag overwritten to
the target size afterwards, which the code does because the filter does not
update it. Frames with no image at all become empty frames. -/
def scaledFrames {Pix : Type} (scaleFn : ℚ → CImage Pix → CImage Pix)
    (src : List (CFrame Pix)) (target : Nat) : List (CFrame Pix) :=
  let ratio : ℚ := (target : ℚ) / (maxNominal src : ℚ)
  src.map (fun fr =>
    match pickSource fr (maxNominal src) with
    | none => ⟨[], fr.delay⟩
    | some img =>
      let scaled := scaleFn ratio img
      ⟨[⟨scaled.pix, scaled.w, scaled.h, scaled.hot, target⟩], fr.delay⟩)

/-- The optional shadow pass: the external shadow filter transforms every
image of every working frame in place. -/
def applyShadow {Pix : Type} (shadowFn : CImage Pix → CImage Pix)
    (addShadow : Bool) (frames : List (CFrame Pix)) : List (CFrame Pix) :=
  if addShadow then frames.map (fun fr => ⟨fr.images.map shadowFn, fr.delay⟩)
  else frames

/-- The merge of a subsequent size into the skeleton: only overlapping
indices receive appended images, the skeleton keeps its own frames beyond the
working list, and working frames beyond the skeleton are dropped. -/
def extendFrames {Pix : Type} :
    List (CFrame Pix) → List (CFrame Pix) → List (CFrame Pix)
  | [], _ => []
  | m, [] => m
  | m :: ms, s :: ss => ⟨m.images ++ s.images, m.delay⟩ :: extendFrames ms ss

/-- One merge step of convert_cursor: an empty accumulator is replaced by the
working list truncated to the original frame count (the skeleton); a
nonempty accumulator is extended index by index over the overlap. -/
def mergeStep {Pix : Type} (base : Nat) (merged sf : List (CFrame Pix)) :
    List (CFrame Pix) :=
  if merged.isEmpty then sf.take base else extendFrames merged sf

/-- The per size loop of the plain (non super resolution) branch of
convert_cursor. A size already present is extracted; otherwise, when the
source has no size at all the size is skipped with a log; otherwise the
scale ratio is computed, where a zero maximal size is the Python division by
zero, which aborts the whole conversion, modelled as none. -/
def plainLoop {Pix : Type} (scaleFn : ℚ → CImage Pix → CImage Pix)
    (shadowFn : CImage Pix → CImage Pix) (addShadow : Bool)
    (src : List (CFrame Pix)) :
    List Nat → List (CFrame Pix) → Option (List (CFrame Pix))
  | [], merged => some merged
  | t :: ts, merged =>
    if t ∈ allNominals src then
      plainLoop scaleFn shadowFn addShadow src ts
        (mergeStep src.length merged
          (applyShadow shadowFn addShadow (presentFrames src t)))
    else if allNominals src = [] then
      plainLoop scaleFn shadowFn addShadow src ts merged
    else if maxNominal src = 0 then none
    else
      plainLoop scaleFn shadowFn addShadow src ts
        (mergeStep src.length merged
          (applyShadow shadowFn addShadow (scaledFrames scaleFn src t)))

/-- The final check of convert_cursor: fail when no frames were merged or
every merged frame has an empty image list; otherwise the merged frames are
handed to the encoder and written out. -/
def finalCheck {Pix : Type} (merged : List (CFrame Pix)) :
    Option (List (CFrame Pix)) :=
  if merged.isEmpty || merged.all (fun fr => fr.images.isEmpty) then none
  else some merged

/-- The plain branch of convert_cursor from the decoded source and the
target size list to the merged frame sequence, or none on failure. -/
def convertPlain {Pix : Type} (scaleFn : ℚ → CImage Pix → CImage Pix)
    (shadowFn : CImage Pix → CImage Pix) (addShadow : Bool)
    (src : List (CFrame Pix)) (ts : List Nat) : Option (List (CFrame Pix)) :=
  (plainLoop scaleFn shadowFn addShadow src ts []).bind finalCheck

/-- The per size working frame lists that reach the merge, in order: one for
each target size that is not skipped. -/
def workingLists {Pix : Type} (scaleFn : ℚ → CImage Pix → CImage Pix)
    (shadowFn : CImage Pix → CImage Pix) (addShadow : Bool)
    (src : List (CFrame Pix)) (ts : List Nat) : List (List (CFrame Pix)) :=
  ts.filterMap (fun t =>
    if t ∈ allNominals src then
      some (applyShadow shadowFn addShadow (presentFrames src t))
    else if allNominals src = [] then none
    else some (applyShadow shadowFn addShadow (scaledFrames scaleFn src t)))

/-- Length of the first nonempty list, zero when there is none: the frame
count of the working list that establishes the skeleton. -/
def firstLen {α : Type} : List (List α) → Nat
  | [] => 0
  | [] :: rest => firstLen rest
  | l :: _ => l.length

/-- The total image count contributed at frame index i by a list of working
frame lists; a list too short to have index i contributes nothing there. -/
def contribAt {Pix : Type} (ls : List (List (CFrame Pix))) (i : Nat) : Nat :=
  (ls.map (fun l => (l.getD i ⟨[], 0⟩).images.length)).sum

/-! ### Merge infrastructure lemmas -/

theorem extendFrames_length {Pix : Type} :
    ∀ (m s : List (CFrame Pix)), (extendFrames m s).length = m.length := by
  intro m
  induction m with
  | nil =>
    intro s
    cases s <;> simp [extendFrames]
  | cons a ms ih =>
    intro s
    cases s with
    | nil => simp [extendFrames]
    | cons b ss => simp [extendFrames, ih ss]

theorem extendFrames_ne_nil {Pix : Type} {m : List (CFrame Pix)}
    (s : List (CFrame Pix)) (h : m ≠ []) : extendFrames m s ≠ [] := by
  intro hx
  have h2 := extendFrames_length m s
  rw [hx] at h2
  exact h (List.length_eq_zero.mp h2.symm)

theorem foldl_mergeStep_ne {Pix : Type} (base : Nat) :
    ∀ (ls : List (List (CFrame Pix))) (merged : List (CFrame Pix)),
      merged ≠ [] →
      (ls.foldl (mergeStep base) merged).length = merged.length ∧
        ls.foldl (mergeStep base) merged ≠ [] := by
  intro ls
  induction ls with
  | nil =>
    intro merged h
    exact ⟨rfl, h⟩
  | cons l rest ih =>
    intro merged h
    have e : mergeStep base merged l = extendFrames merged l := by
      simp only [mergeStep]
      rw [if_neg]
      simp [List.isEmpty_iff, h]
    have hne := extendFrames_ne_nil l h
    obtain ⟨h1, h2⟩ := ih (extendFrames merged l) hne
    simp only [List.foldl_cons, e]
    exact ⟨h1.trans (extendFrames_length merged l), h2⟩

theorem foldl_mergeStep_zero {Pix : Type} :
    ∀ (ls : List (List (CFrame Pix))),
      ls.foldl (mergeStep 0) [] = ([] : List (CFrame Pix)) := by
  intro ls
  induction ls with
  | nil => rfl
  | cons l rest ih =>
    have e : mergeStep 0 ([] : List (CFrame Pix)) l = [] := by
      simp [mergeStep]
    simp only [List.foldl_cons, e, ih]

theorem foldl_mergeStep_length {Pix : Type} (base : Nat) :
    ∀ (ls : List (List (CFrame Pix))),
      (ls.foldl (mergeStep base) []).length = min base (firstLen ls) := by
  intro ls
  induction ls with
  | nil => simp [firstLen]
  | cons l rest ih =>
    cases l with
    | nil =>
      have e : mergeStep base ([] : List (CFrame Pix)) [] = [] := by
        simp [mergeStep]
      simp only [List.foldl_cons, e, firstLen]
      exact ih
    | cons fr l2 =>
      have e : mergeStep base ([] : List (CFrame Pix)) (fr :: l2) =
          (fr :: l2).take base := by
        simp [mergeStep]
      simp only [List.foldl_cons, e]
      by_cases hb : base = 0
      · subst hb
        rw [show (fr :: l2).take 0 = ([] : List (CFrame Pix)) from rfl,
          foldl_mergeStep_zero]
        simp [firstLen]
      · have hne : (fr :: l2).take base ≠ [] := by
          cases base with
          | zero => exact absurd rfl hb
          | succ n => simp [List.take]
        obtain ⟨h1, _⟩ := foldl_mergeStep_ne base rest _ hne
        rw [h1, List.length_take]
        simp [firstLen]

theorem getD_take {α : Type} :
    ∀ (l : List α) (n i : Nat) (d : α), i < n →
      (l.take n).getD i d = l.getD i d := by
  intro l
  induction l with
  | nil =>
    intro n i d _
    simp
  | cons a t ih =>
    intro n i d h
    cases n with
    | zero => omega
    | succ m =>
      cases i with
      | zero => simp [List.take]
      | succ j =>
        simp only [List.take, List.getD_cons_succ]
        exact ih m j d (by omega)

theorem extendFrames_count {Pix : Type} :
    ∀ (m s : List (CFrame Pix)) (i : Nat), i < m.length →
      ((extendFrames m s).getD i ⟨[], 0⟩).images.length =
        (m.getD i ⟨[], 0⟩).images.length + (s.getD i ⟨[], 0⟩).images.length := by
  intro m
  induction m with
  | nil =>
    intro s i h
    simp at h
  | cons a ms ih =>
    intro s i h
    cases s with
    | nil =>
      cases i with
      | zero => simp [extendFrames]
      | succ n => simp [extendFrames]
    | cons b ss =>
      cases i with
      | zero => simp [extendFrames]
      | succ n =>
        simp only [extendFrames, List.getD_cons_succ]
        exact ih ss n (by simpa using h)

theorem contribAt_cons {Pix : Type} (l : List (CFrame Pix))
    (rest : List (List (CFrame Pix))) (i : Nat) :
    contribAt (l :: rest) i =
      (l.getD i ⟨[], 0⟩).images.length + contribAt rest i := by
  simp [contribAt]

theorem foldl_mergeStep_count_ne {Pix : Type} (base : Nat) :
    ∀ (ls : List (List (CFrame Pix))) (merged : List (CFrame Pix)),
      merged ≠ [] → ∀ i, i < merged.length →
      ((ls.foldl (mergeStep base) merged).getD i ⟨[], 0⟩).images.length =
        (merged.getD i ⟨[], 0⟩).images.length + contribAt ls i := by
  intro ls
  induction ls with
  | nil =>
    intro merged _ i _
    simp [contribAt]
  | cons l rest ih =>
    intro merged h i hi
    have e : mergeStep base merged l = extendFrames merged l := by
      simp only [mergeStep]
      rw [if_neg]
      simp [List.isEmpty_iff, h]
    have hne := extendFrames_ne_nil l h
    have hlen := extendFrames_length merged l
    simp only [List.foldl_cons, e]
    rw [ih (extendFrames merged l) hne i (by rw [hlen]; exact hi),
      extendFrames_count merged l i hi, contribAt_cons]
    omega

theorem foldl_mergeStep_count {Pix : Type} (base : Nat) :
    ∀ (ls : List (List (CFrame Pix))) (i : Nat),
      i < (ls.foldl (mergeStep base) []).length →
      ((ls.foldl (mergeStep base) []).getD i ⟨[], 0⟩).images.length =
        contribAt ls i := by
  intro ls
  induction ls with
  | nil =>
    intro i hi
    simp at hi
  | cons l rest ih =>
    intro i hi
    cases l with
    | nil =>
      have e : mergeStep base ([] : List (CFrame Pix)) [] = [] := by
        simp [mergeStep]
      simp only [List.foldl_cons, e] at hi ⊢
      rw [ih i hi, contribAt_cons]
      simp
    | cons fr l2 =>
      have e : mergeStep base ([] : List (CFrame Pix)) (fr :: l2) =
          (fr :: l2).take base := by
        simp [mergeStep]
      simp only [List.foldl_cons, e] at hi ⊢
      by_cases hb : base = 0
      · subst hb
        rw [show (fr :: l2).take 0 = ([] : List (CFrame Pix)) from rfl,
          foldl_mergeStep_zero] at hi
        simp at hi
      · have hne : (fr :: l2).take base ≠ [] := by
          cases base with
          | zero => exact absurd rfl hb
          | succ n => simp [List.take]
        have hlen := (foldl_mergeStep_ne base rest _ hne).1
        have hi2 : i < ((fr :: l2).take base).length := by
          rw [← hlen]
          exact hi
        have hib : i < base := by
          rw [List.length_take] at hi2
          omega
        rw [foldl_mergeStep_count_ne base rest _ hne i hi2, contribAt_cons,
          getD_take _ base i _ hib]

/-- The merged frame list that reaches the final check, as a fold of the
merge step over the per size working lists. -/
def mergedFrames {Pix : Type} (scaleFn : ℚ → CImage Pix → CImage Pix)
    (shadowFn : CImage Pix → CImage Pix) (addShadow : Bool)
    (src : List (CFrame Pix)) (ts : List Nat) : List (CFrame Pix) :=
  (workingLists scaleFn shadowFn addShadow src ts).foldl
    (mergeStep src.length) []

theorem plainLoop_some_fold {Pix : Type} (scaleFn : ℚ → CImage Pix → CImage Pix)
    (shadowFn : CImage Pix → CImage Pix) (addShadow : Bool)
    (src : List (CFrame Pix)) :
    ∀ (ts : List Nat) (merged out : List (CFrame Pix)),
      plainLoop scaleFn shadowFn addShadow src ts merged = some out →
      out = (workingLists scaleFn shadowFn addShadow src ts).foldl
        (mergeStep src.length) merged := by
  intro ts
  induction ts with
  | nil =>
    intro merged out h
    simp only [plainLoop] at h
    cases h
    simp [workingLists]
  | cons t ts2 ih =>
    intro merged out h
    by_cases h1 : t ∈ allNominals src
    · have e : plainLoop scaleFn shadowFn addShadow src (t :: ts2) merged =
          plainLoop scaleFn shadowFn addShadow src ts2
            (mergeStep src.length merged
              (applyShadow shadowFn addShadow (presentFrames src t))) := by
        simp [plainLoop, h1]
      have e2 : workingLists scaleFn shadowFn addShadow src (t :: ts2) =
          applyShadow shadowFn addShadow (presentFrames src t) ::
            workingLists scaleFn shadowFn addShadow src ts2 := by
        simp [workingLists, h1]
      rw [e] at h
      rw [e2, List.foldl_cons]
      exact ih _ out h
    · by_cases h2 : allNominals src = []
      · have e : plainLoop scaleFn shadowFn addShadow src (t :: ts2) merged =
            plainLoop scaleFn shadowFn addShadow src ts2 merged := by
          simp [plainLoop, h1, h2]
        have e2 : workingLists scaleFn shadowFn addShadow src (t :: ts2) =
            workingLists scaleFn shadowFn addShadow src ts2 := by
          simp [workingLists, h1, h2]
        rw [e] at h
        rw [e2]
        exact ih _ out h
      · by_cases h3 : maxNominal src = 0
        · have e : plainLoop scaleFn shadowFn addShadow src (t :: ts2) merged =
              none := by
            simp [plainLoop, h1, h2, h3]
          rw [e] at h
          exact Option.noConfusion h
        · have e : plainLoop scaleFn shadowFn addShadow src (t :: ts2) merged =
              plainLoop scaleFn shadowFn addShadow src ts2
                (mergeStep src.length merged
                  (applyShadow shadowFn addShadow (scaledFrames scaleFn src t))) := by
            simp [plainLoop, h1, h2, h3]
          have e2 : workingLists scaleFn shadowFn addShadow src (t :: ts2) =
              applyShadow shadowFn addShadow (scaledFrames scaleFn src t) ::
                workingLists scaleFn shadowFn addShadow src ts2 := by
            simp [workingLists, h1, h2]
          rw [e] at h
          rw [e2, List.foldl_cons]
          exact ih _ out h

theorem plainLoop_total {Pix : Type} (scaleFn : ℚ → CImage Pix → CImage Pix)
    (shadowFn : CImage Pix → CImage Pix) (addShadow : Bool)
    (src : List (CFrame Pix))
    (hmax : allNominals src = [] ∨ maxNominal src ≠ 0) :
    ∀ (ts : List Nat) (merged : List (CFrame Pix)),
      plainLoop scaleFn shadowFn addShadow src ts merged =
        some ((workingLists scaleFn shadowFn addShadow src ts).foldl
          (mergeStep src.length) merged) := by
  intro ts
  induction ts with
  | nil =>
    intro merged
    simp [plainLoop, workingLists]
  | cons t ts2 ih =>
    intro merged
    by_cases h1 : t ∈ allNominals src
    · have e : plainLoop scaleFn shadowFn addShadow src (t :: ts2) merged =
          plainLoop scaleFn shadowFn addShadow src ts2
            (mergeStep src.length merged
              (applyShadow shadowFn addShadow (presentFrames src t))) := by
        simp [plainLoop, h1]
      have e2 : workingLists scaleFn shadowFn addShadow src (t :: ts2) =
          applyShadow shadowFn addShadow (presentFrames src t) ::
            workingLists scaleFn shadowFn addShadow src ts2 := by
        simp [workingLists, h1]
      rw [e, e2, List.foldl_cons]
      exact ih _
    · by_cases h2 : allNominals src = []
      · have e : plainLoop scaleFn shadowFn addShadow src (t :: ts2) merged =
            plainLoop scaleFn shadowFn addShadow src ts2 merged := by
          simp [plainLoop, h1, h2]
        have e2 : workingLists scaleFn shadowFn addShadow src (t :: ts2) =
            workingLists scaleFn shadowFn addShadow src ts2 := by
          simp [workingLists, h1, h2]
        rw [e, e2]
        exact ih _
      · have h3 : ¬ maxNominal src = 0 := by
          rcases hmax with hmax | hmax
          · exact absurd hmax h2
          · exact hmax
        have e : plainLoop scaleFn shadowFn addShadow src (t :: ts2) merged =
            plainLoop scaleFn shadowFn addShadow src ts2
              (mergeStep src.length merged
                (applyShadow shadowFn addShadow (scaledFrames scaleFn src t))) := by
          simp [plainLoop, h1, h2, h3]
        have e2 : workingLists scaleFn shadowFn addShadow src (t :: ts2) =
            applyShadow shadowFn addShadow (scaledFrames scaleFn src t) ::
              workingLists scaleFn shadowFn addShadow src ts2 := by
          simp [workingLists, h1, h2]
        rw [e, e2, List.foldl_cons]
        exact ih _

/-! ### Working list properties -/

theorem applyShadow_false {Pix : Type} (shadowFn : CImage Pix → CImage Pix)
    (frames : List (CFrame Pix)) : applyShadow shadowFn false frames = frames :=
  rfl

theorem presentFrames_length_le {Pix : Type} (src : List (CFrame Pix))
    (target : Nat) : (presentFrames src target).length ≤ src.length :=
  List.length_filterMap_le _ _

theorem presentFrames_mem_images {Pix : Type} {src : List (CFrame Pix)}
    {target : Nat} {p : CFrame Pix} (hp : p ∈ presentFrames src target) :
    p.images ≠ [] := by
  simp only [presentFrames, List.mem_filterMap] at hp
  obtain ⟨fr, _, hf⟩ := hp
  split at hf
  · exact Option.noConfusion hf
  · cases hf
    rename_i hne
    simp only [List.isEmpty_iff] at hne
    exact hne

theorem presentFrames_ne_nil {Pix : Type} {src : List (CFrame Pix)}
    {target : Nat} (h : target ∈ allNominals src) :
    presentFrames src target ≠ [] := by
  simp only [allNominals, List.mem_flatMap, List.mem_map] at h
  obtain ⟨fr, hfr, img, himg, hnom⟩ := h
  have hmem : img ∈ fr.images.filter (fun i => i.nominal == target) :=
    List.mem_filter.mpr ⟨himg, by simp [hnom]⟩
  have hne2 : ¬ (fr.images.filter (fun i => i.nominal == target)).isEmpty := by
    simp only [List.isEmpty_iff]
    exact List.ne_nil_of_mem hmem
  have : (⟨fr.images.filter (fun i => i.nominal == target), fr.delay⟩ : CFrame Pix)
      ∈ presentFrames src target := by
    simp only [presentFrames, List.mem_filterMap]
    refine ⟨fr, hfr, ?_⟩
    rw [if_neg hne2]
  exact List.ne_nil_of_mem this

theorem pickSource_of_ne {Pix : Type} (fr : CFrame Pix) (orig : Nat)
    (h : fr.images ≠ []) : ∃ img, pickSource fr orig = some img := by
  unfold pickSource
  cases hf : fr.images.find? (fun i => i.nominal == orig) with
  | some img => exact ⟨img, rfl⟩
  | none =>
    cases hi : fr.images with
    | nil => exact absurd hi h
    | cons i0 rest =>
      exact ⟨_, rfl⟩

theorem scaledFrames_length {Pix : Type} (scaleFn : ℚ → CImage Pix → CImage Pix)
    (src : List (CFrame Pix)) (target : Nat) :
    (scaledFrames scaleFn src target).length = src.length := by
  simp [scaledFrames]

theorem scaledFrames_exists_ne {Pix : Type}
    (scaleFn : ℚ → CImage Pix → CImage Pix) {src : List (CFrame Pix)}
    (target : Nat) {fr : CFrame Pix} (hfr : fr ∈ src) (h : fr.images ≠ []) :
    ∃ p ∈ scaledFrames scaleFn src target, p.images ≠ [] := by
  obtain ⟨img, hpick⟩ := pickSource_of_ne fr (maxNominal src) h
  refine ⟨_, List.mem_map_of_mem _ hfr, ?_⟩
  simp only [hpick]
  simp

theorem applyShadow_ne_nil {Pix : Type} (shadowFn : CImage Pix → CImage Pix)
    (addShadow : Bool) {frames : List (CFrame Pix)} (h : frames ≠ []) :
    applyShadow shadowFn addShadow frames ≠ [] := by
  unfold applyShadow
  cases addShadow with
  | false => exact h
  | true =>
    simp only [if_pos rfl]
    intro hx
    exact h (List.map_eq_nil_iff.mp hx)

theorem applyShadow_length {Pix : Type} (shadowFn : CImage Pix → CImage Pix)
    (addShadow : Bool) (frames : List (CFrame Pix)) :
    (applyShadow shadowFn addShadow frames).length = frames.length := by
  unfold applyShadow
  cases addShadow with
  | false => rfl
  | true => simp

theorem applyShadow_exists_ne {Pix : Type} (shadowFn : CImage Pix → CImage Pix)
    (addShadow : Bool) {frames : List (CFrame Pix)}
    (h : ∃ p ∈ frames, p.images ≠ []) :
    ∃ p ∈ applyShadow shadowFn addShadow frames, p.images ≠ [] := by
  obtain ⟨p, hp, hpne⟩ := h
  unfold applyShadow
  cases addShadow with
  | false => exact ⟨p, hp, hpne⟩
  | true =>
    simp only [if_pos rfl]
    refine ⟨_, List.mem_map_of_mem _ hp, ?_⟩
    simp only []
    intro hx
    exact hpne (List.map_eq_nil_iff.mp hx)

/-- Claim C4: for a target size already present in the source, with shadow
off, converting that size alone succeeds and yields per original frame
exactly the source images tagged with that nominal size, the image records
unchanged and frames without a matching image dropped; and the result is the
same for any two scale filters, so the scale filter is never invoked for an
already present size. -/
theorem convertPlain_present_exact {Pix : Type}
    (scaleFn scaleFn2 : ℚ → CImage Pix → CImage Pix)
    (shadowFn : CImage Pix → CImage Pix)
    (src : List (CFrame Pix)) (target : Nat)
    (h : target ∈ allNominals src) :
    convertPlain scaleFn shadowFn false src [target] =
      some (src.filterMap (fun fr =>
        let matching := fr.images.filter (fun i => i.nominal == target)
        if matching.isEmpty then none else some ⟨matching, fr.delay⟩)) ∧
    convertPlain scaleFn shadowFn false src [target] =
      convertPlain scaleFn2 shadowFn false src [target] := by
  have key : ∀ (f : ℚ → CImage Pix → CImage Pix),
      convertPlain f shadowFn false src [target] =
        some (presentFrames src target) := by
    intro f
    unfold convertPlain
    have e1 : plainLoop f shadowFn false src [target] [] =
        some (mergeStep src.length []
          (applyShadow shadowFn false (presentFrames src target))) := by
      simp [plainLoop, h]
    have e2 : mergeStep src.length []
        (applyShadow shadowFn false (presentFrames src target)) =
        presentFrames src target := by
      rw [applyShadow_false]
      simp only [mergeStep, List.isEmpty_nil, if_pos rfl]
      exact List.take_of_length_le (presentFrames_length_le src target)
    rw [e1, e2]
    have hne := presentFrames_ne_nil h
    obtain ⟨p, hp⟩ := List.exists_mem_of_ne_nil _ hne
    have hpne := presentFrames_mem_images hp
    have hcond : ¬ (((presentFrames src target).isEmpty ||
        (presentFrames src target).all (fun fr => fr.images.isEmpty)) = true) := by
      simp only [Bool.or_eq_true, List.isEmpty_iff, List.all_eq_true, not_or]
      constructor
      · exact hne
      · intro hall
        have := hall p hp
        simp only [List.isEmpty_iff] at this
        exact hpne this
    simp only [Option.some_bind, finalCheck, if_neg hcond]
  constructor
  · exact key scaleFn
  · exact (key scaleFn).trans (key scaleFn2).symm

/-- A one frame, one image source for witnesses of claim C4. -/
def srcC4 : List (CFrame Unit) := [⟨[⟨(), 32, 32, (1, 2), 32⟩], 7⟩]

theorem convertPlain_present_exact_witness :
    (convertPlain (fun _ i => i) (fun i => i) false srcC4 [32] =
      some (srcC4.filterMap (fun fr =>
        let matching := fr.images.filter (fun i => i.nominal == 32)
        if matching.isEmpty then none else some ⟨matching, fr.delay⟩))) ∧
    convertPlain (fun _ i => i) (fun i => i) false srcC4 [32] =
      convertPlain (fun _ i => ⟨i.pix, i.w + 1, i.h, i.hot, 99⟩)
        (fun i => i) false srcC4 [32] :=
  convertPlain_present_exact (fun _ i => i)
    (fun _ i => ⟨i.pix, i.w + 1, i.h, i.hot, 99⟩) (fun i => i) srcC4 32
    (by decide)

/-- Claim C5 (amended): for two target sizes merged in sequence, every frame
of the merged result holds an image count equal to the sum of the image
counts contributed by the two sizes at that frame index; contributions at
indices beyond the merged frame count, which arise when the first size
produced a shorter working list than a later size, are dropped. -/
theorem convertPlain_count_sum {Pix : Type}
    (scaleFn : ℚ → CImage Pix → CImage Pix)
    (shadowFn : CImage Pix → CImage Pix) (addShadow : Bool)
    (src : List (CFrame Pix)) (t1 t2 : Nat) (out : List (CFrame Pix)) (i : Nat)
    (h : convertPlain scaleFn shadowFn addShadow src [t1, t2] = some out)
    (hi : i < out.length) :
    (out.getD i ⟨[], 0⟩).images.length =
      contribAt (workingLists scaleFn shadowFn addShadow src [t1, t2]) i := by
  unfold convertPlain at h
  cases hp : plainLoop scaleFn shadowFn addShadow src [t1, t2] [] with
  | none =>
    rw [hp] at h
    exact Option.noConfusion h
  | some m =>
    rw [hp] at h
    have h2 : finalCheck m = some out := h
    have hm : m = out := by
      unfold finalCheck at h2
      split at h2
      · exact Option.noConfusion h2
      · exact Option.some.inj h2
    subst hm
    have hfold := plainLoop_some_fold scaleFn shadowFn addShadow src _ _ _ hp
    rw [hfold] at hi ⊢
    exact foldl_mergeStep_count src.length _ i hi

/-- A two frame source, sizes 32 and 48, for the counterexample of claim C5. -/
def srcC5 : List (CFrame Unit) :=
  [⟨[⟨(), 32, 32, (0, 0), 32⟩], 5⟩, ⟨[⟨(), 48, 48, (0, 0), 48⟩], 5⟩]

/-- Claim C5 counterexample: with sizes 32 then 64 on srcC5, the merged
result holds 2 images in total while the two sizes contributed 3 in total,
so one contribution was lost: size 32 is present only in the first frame, the
skeleton has one frame, and the second frame scaled for size 64 is dropped. -/
theorem convertPlain_count_counterexample :
    ¬ ((convertPlain (fun _ i => i) (fun i => i) false srcC5 [32, 64]).map
         (fun m => (m.map (fun fr => fr.images.length)).sum) =
       some (((workingLists (fun _ i => i) (fun i => i) false srcC5
           [32, 64]).map
         (fun l => (l.map (fun fr => fr.images.length)).sum)).sum)) := by
  decide

/-- A one frame source for the witness of claim C5. -/
def srcC5w : List (CFrame Unit) := [⟨[⟨(), 32, 32, (0, 0), 32⟩], 5⟩]

/-- The merged output of srcC5w at sizes 32 and 64. -/
def outC5w : List (CFrame Unit) :=
  [⟨[⟨(), 32, 32, (0, 0), 32⟩, ⟨(), 32, 32, (0, 0), 64⟩], 5⟩]

theorem convertPlain_count_sum_witness :
    (outC5w.getD 0 ⟨[], 0⟩).images.length =
      contribAt (workingLists (fun _ i => i) (fun i => i) false srcC5w
        [32, 64]) 0 :=
  convertPlain_count_sum (fun _ i => i) (fun i => i) false srcC5w 32 64
    outC5w 0 (by decide) (by decide)

/-! ### Failure characterization: claim C7 -/

theorem allNominals_decomp {Pix : Type} {src : List (CFrame Pix)} {n : Nat}
    (h : n ∈ allNominals src) :
    ∃ fr ∈ src, ∃ i ∈ fr.images, i.nominal = n := by
  simp only [allNominals, List.mem_flatMap, List.mem_map] at h
  obtain ⟨fr, hfr, i, hi, hn⟩ := h
  exact ⟨fr, hfr, i, hi, hn⟩

theorem le_foldr_max : ∀ (l : List Nat), ∀ n ∈ l, n ≤ l.foldr max 0 := by
  intro l
  induction l with
  | nil =>
    intro n hn
    simp at hn
  | cons a t ih =>
    intro n hn
    rcases List.mem_cons.mp hn with rfl | hn2
    · exact Nat.le_max_left _ _
    · exact (ih n hn2).trans (Nat.le_max_right _ _)

theorem le_maxNominal {Pix : Type} {src : List (CFrame Pix)} {n : Nat}
    (h : n ∈ allNominals src) : n ≤ maxNominal src :=
  le_foldr_max _ n h

theorem workingLists_of_no_sizes {Pix : Type}
    (scaleFn : ℚ → CImage Pix → CImage Pix)
    (shadowFn : CImage Pix → CImage Pix) (addShadow : Bool)
    {src : List (CFrame Pix)} (hn : allNominals src = []) :
    ∀ ts, workingLists scaleFn shadowFn addShadow src ts = [] := by
  intro ts
  induction ts with
  | nil => rfl
  | cons t ts2 ih =>
    have h1 : ¬ (t ∈ allNominals src) := by
      rw [hn]
      simp
    have e : workingLists scaleFn shadowFn addShadow src (t :: ts2) =
        workingLists scaleFn shadowFn addShadow src ts2 := by
      simp [workingLists, h1, hn]
    rw [e, ih]

theorem fold_first_success {Pix : Type} (base : Nat) (w1 : List (CFrame Pix))
    (wrest : List (List (CFrame Pix)))
    (hlen : w1.length ≤ base) (hne : w1 ≠ [])
    (hex : ∃ p ∈ w1, p.images ≠ []) :
    (w1 :: wrest).foldl (mergeStep base) [] ≠ [] ∧
      ∃ fr ∈ (w1 :: wrest).foldl (mergeStep base) [], fr.images ≠ [] := by
  have e : mergeStep base ([] : List (CFrame Pix)) w1 = w1 := by
    simp only [mergeStep, List.isEmpty_nil, if_pos rfl]
    exact List.take_of_length_le hlen
  simp only [List.foldl_cons, e]
  obtain ⟨hlen2, hne2⟩ := foldl_mergeStep_ne base wrest w1 hne
  refine ⟨hne2, ?_⟩
  obtain ⟨p, hp, hpne⟩ := hex
  obtain ⟨j, hj, hjp⟩ := List.mem_iff_getElem.mp hp
  have hcount := foldl_mergeStep_count_ne base wrest w1 hne j hj
  have hgd : w1.getD j ⟨[], 0⟩ = p := by
    rw [List.getD_eq_getElem?_getD, List.getElem?_eq_getElem hj]
    exact hjp
  rw [hgd] at hcount
  have hjlt : j < (wrest.foldl (mergeStep base) w1).length := by
    rw [hlen2]
    exact hj
  refine ⟨(wrest.foldl (mergeStep base) w1).getD j ⟨[], 0⟩, ?_, ?_⟩
  · rw [List.getD_eq_getElem?_getD, List.getElem?_eq_getElem hjlt]
    exact List.getElem_mem hjlt
  · intro hx
    rw [hx] at hcount
    simp only [List.length_nil] at hcount
    have : p.images.length = 0 := by omega
    exact hpne (List.length_eq_zero.mp this)

theorem mergedFrames_success {Pix : Type}
    (scaleFn : ℚ → CImage Pix → CImage Pix)
    (shadowFn : CImage Pix → CImage Pix) (addShadow : Bool)
    {src : List (CFrame Pix)} {ts : List Nat}
    (hts : ts ≠ []) (hsrc : src ≠ []) (hn : allNominals src ≠ []) :
    mergedFrames scaleFn shadowFn addShadow src ts ≠ [] ∧
      ∃ fr ∈ mergedFrames scaleFn shadowFn addShadow src ts, fr.images ≠ [] := by
  obtain ⟨t, ts2, rfl⟩ := List.exists_cons_of_ne_nil hts
  by_cases h1 : t ∈ allNominals src
  · have e2 : workingLists scaleFn shadowFn addShadow src (t :: ts2) =
        applyShadow shadowFn addShadow (presentFrames src t) ::
          workingLists scaleFn shadowFn addShadow src ts2 := by
      simp [workingLists, h1]
    unfold mergedFrames
    rw [e2]
    apply fold_first_success
    · rw [applyShadow_length]
      exact presentFrames_length_le src t
    · exact applyShadow_ne_nil shadowFn addShadow (presentFrames_ne_nil h1)
    · apply applyShadow_exists_ne
      obtain ⟨p, hp⟩ := List.exists_mem_of_ne_nil _ (presentFrames_ne_nil h1)
      exact ⟨p, hp, presentFrames_mem_images hp⟩
  · have e2 : workingLists scaleFn shadowFn addShadow src (t :: ts2) =
        applyShadow shadowFn addShadow (scaledFrames scaleFn src t) ::
          workingLists scaleFn shadowFn addShadow src ts2 := by
      simp [workingLists, h1, hn]
    unfold mergedFrames
    rw [e2]
    obtain ⟨n, hnmem⟩ := List.exists_mem_of_ne_nil _ hn
    obtain ⟨fr, hfr, i, hi, _⟩ := allNominals_decomp hnmem
    have hfne : fr.images ≠ [] := List.ne_nil_of_mem hi
    apply fold_first_success
    · rw [applyShadow_length, scaledFrames_length]
    · apply applyShadow_ne_nil
      intro hx
      have := scaledFrames_length scaleFn src t
      rw [hx] at this
      simp only [List.length_nil] at this
      exact hsrc (List.length_eq_zero.mp this.symm)
    · exact applyShadow_exists_ne shadowFn addShadow
        (scaledFrames_exists_ne scaleFn t hfr hfne)

/-- Claim C7: with a nonempty target size list and positive nominal size
tags (the decode interface declares every bitmap with its positive edge
length), the plain conversion fails exactly when the merged sequence is
empty or every merged frame carries an empty image list; equivalently,
exactly when the source decodes to no frames or to frames with no images at
all; otherwise the call succeeds and hands exactly the merged sequence to
the encoder and the writer. -/
theorem convertPlain_fail_iff {Pix : Type}
    (scaleFn : ℚ → CImage Pix → CImage Pix)
    (shadowFn : CImage Pix → CImage Pix) (addShadow : Bool)
    (src : List (CFrame Pix)) (ts : List Nat)
    (hts : ts ≠ [])
    (hpos : ∀ fr ∈ src, ∀ i ∈ fr.images, 0 < i.nominal) :
    (convertPlain scaleFn shadowFn addShadow src ts = none ↔
      (mergedFrames scaleFn shadowFn addShadow src ts = [] ∨
        ∀ fr ∈ mergedFrames scaleFn shadowFn addShadow src ts,
          fr.images = [])) ∧
    (convertPlain scaleFn shadowFn addShadow src ts = none ↔
      (src = [] ∨ allNominals src = [])) ∧
    (convertPlain scaleFn shadowFn addShadow src ts = none ∨
      convertPlain scaleFn shadowFn addShadow src ts =
        some (mergedFrames scaleFn shadowFn addShadow src ts)) := by
  have hmax : allNominals src = [] ∨ maxNominal src ≠ 0 := by
    by_cases hn : allNominals src = []
    · exact Or.inl hn
    · right
      obtain ⟨n, hnmem⟩ := List.exists_mem_of_ne_nil _ hn
      obtain ⟨fr, hfr, i, hi, hnom⟩ := allNominals_decomp hnmem
      have hp := hpos fr hfr i hi
      have hle := le_maxNominal hnmem
      omega
  have htotal := plainLoop_total scaleFn shadowFn addShadow src hmax ts []
  have hconv : convertPlain scaleFn shadowFn addShadow src ts =
      finalCheck (mergedFrames scaleFn shadowFn addShadow src ts) := by
    unfold convertPlain mergedFrames
    rw [htotal]
    rfl
  have hfc : ∀ (m : List (CFrame Pix)),
      finalCheck m = none ↔ (m = [] ∨ ∀ fr ∈ m, fr.images = []) := by
    intro m
    unfold finalCheck
    split
    · rename_i hcond
      simp only [Bool.or_eq_true, List.isEmpty_iff, List.all_eq_true] at hcond
      constructor
      · intro _
        rcases hcond with hc | hc
        · exact Or.inl hc
        · right
          intro fr hfr
          have := hc fr hfr
          simpa [List.isEmpty_iff] using this
      · intro _
        rfl
    · rename_i hcond
      simp only [Bool.or_eq_true, List.isEmpty_iff, List.all_eq_true,
        not_or] at hcond
      obtain ⟨hc1, hc2⟩ := hcond
      constructor
      · intro hx
        exact Option.noConfusion hx
      · intro hx
        rcases hx with hx | hx
        · exact absurd hx hc1
        · exfalso
          apply hc2
          intro fr hfr
          simp [List.isEmpty_iff, hx fr hfr]
  have c1 : convertPlain scaleFn shadowFn addShadow src ts = none ↔
      (mergedFrames scaleFn shadowFn addShadow src ts = [] ∨
        ∀ fr ∈ mergedFrames scaleFn shadowFn addShadow src ts,
          fr.images = []) := by
    rw [hconv]
    exact hfc _
  refine ⟨c1, ?_, ?_⟩
  · rw [c1]
    constructor
    · intro hx
      by_cases hsrc : src = []
      · exact Or.inl hsrc
      · by_cases hn : allNominals src = []
        · exact Or.inr hn
        · exfalso
          obtain ⟨hne, fr, hfr, hfne⟩ :=
            mergedFrames_success scaleFn shadowFn addShadow hts hsrc hn
          rcases hx with hx | hx
          · exact hne hx
          · exact hfne (hx fr hfr)
    · intro hx
      left
      have hn : allNominals src = [] := by
        rcases hx with hx | hx
        · rw [hx]
          rfl
        · exact hx
      unfold mergedFrames
      rw [workingLists_of_no_sizes scaleFn shadowFn addShadow hn]
      rfl
  · rw [hconv]
    cases hfcm : finalCheck (mergedFrames scaleFn shadowFn addShadow src ts) with
    | none => exact Or.inl rfl
    | some m =>
      right
      congr 1
      unfold finalCheck at hfcm
      split at hfcm
      · exact Option.noConfusion hfcm
      · exact (Option.some.inj hfcm).symm

/-- A one frame, one image source for the witness of claim C7. -/
def srcC7 : List (CFrame Unit) := [⟨[⟨(), 32, 32, (0, 0), 32⟩], 9⟩]

theorem convertPlain_fail_iff_witness :
    (convertPlain (fun _ i => i) (fun i => i) false srcC7 [32] = none ↔
      (srcC7 = [] ∨ allNominals srcC7 = [])) ∧
    (convertPlain (fun _ i => i) (fun i => i) false srcC7 [32] = none ∨
      convertPlain (fun _ i => i) (fun i => i) false srcC7 [32] =
        some (mergedFrames (fun _ i => i) (fun i => i) false srcC7 [32])) :=
  ⟨(convertPlain_fail_iff (fun _ i => i) (fun i => i) false srcC7 [32]
      (by decide) (by decide)).2.1,
   (convertPlain_fail_iff (fun _ i => i) (fun i => i) false srcC7 [32]
      (by decide) (by decide)).2.2⟩

/-!
### Part 3: the super resolution branch of convert_cursor

The inference call is an abstract transform srFn from an image to a pixel
payload with its output height and width (the array shape the code measures).
Float arithmetic of the code is modelled over the rationals: Python int()
truncates toward zero, which is Int T division of numerator by denominator,
and Python round() rounds half to even.
-/

/-- Floor of a rational: floor division of the numerator by the denominator. -/
def ratFloor (q : ℚ) : Int := Int.fdiv q.num (q.den : Int)

/-- Python int() on a rational: truncation toward zero. -/
def pyTrunc (q : ℚ) : Int := q.num / (q.den : Int)

/-- Python round() on a rational: nearest integer, ties to the even one. -/
def pyRound (q : ℚ) : Int :=
  let f := ratFloor q
  let r := q - (f : ℚ)
  if r < 1 / 2 then f
  else if 1 / 2 < r then f + 1
  else if f % 2 = 0 then f else f + 1

/-- The super resolution frame loop of convert_cursor: frames without an
image at the maximal original size are skipped; the first processed frame
with positive pixel height fixes the measured factor, the ratio of the
inference output height to the input height, and the synthesized nominal
size, round of maximal original size times the measured factor; every
processed frame becomes a singleton frame whose hotspot is the original
hotspot scaled by the factor in use, the measured one once it is known and
the advisory constant before that. The nominal tag is the synthesized size;
before the measurement the code stores the Python None there, a value that
is never read on any path that returns output, so the model uses zero. -/
def srLoop {Pix : Type} (srFn : CImage Pix → Pix × Nat × Nat) (advisory : ℚ)
    (maxOrig : Nat) :
    Option ℚ → Option Nat → List (CFrame Pix) →
      List (CFrame Pix) × Option ℚ × Option Nat
  | f, s, [] => ([], f, s)
  | f, s, fr :: rest =>
    match fr.images.find? (fun i => i.nominal == maxOrig) with
    | none => srLoop srFn advisory maxOrig f s rest
    | some img =>
      let sr := srFn img
      let measure : Bool := f.isNone && decide (0 < img.h)
      let f2 := if measure then some ((sr.2.1 : ℚ) / (img.h : ℚ)) else f
      let s2 :=
        if measure then
          some (pyRound ((maxOrig : ℚ) * ((sr.2.1 : ℚ) / (img.h : ℚ)))).toNat
        else s
      let factorUsed := f2.getD advisory
      let newImg : CImage Pix :=
        ⟨sr.1, sr.2.2, sr.2.1,
          (pyTrunc ((img.hot.1 : ℚ) * factorUsed),
           pyTrunc ((img.hot.2 : ℚ) * factorUsed)),
          s2.getD 0⟩
      let res := srLoop srFn advisory maxOrig f2 s2 rest
      (⟨[newImg], fr.delay⟩ :: res.1, res.2)

/-- The synthesized base described by the specification: one singleton frame
per source frame holding a maximal size image, pixels and dimensions from
the inference output, hotspot scaled by the measured factor mu, nominal tag
the synthesized size. -/
def srBaseSpec {Pix : Type} (srFn : CImage Pix → Pix × Nat × Nat)
    (maxOrig : Nat) (mu : ℚ) (nom : Nat) (src : List (CFrame Pix)) :
    List (CFrame Pix) :=
  src.filterMap (fun fr =>
    (fr.images.find? (fun i => i.nominal == maxOrig)).map (fun img =>
      ⟨[⟨(srFn img).1, (srFn img).2.2, (srFn img).2.1,
        (pyTrunc ((img.hot.1 : ℚ) * mu), pyTrunc ((img.hot.2 : ℚ) * mu)),
        nom⟩], fr.delay⟩))

/-- Scaling one super resolved frame to a target size: each image is resized
by the external filter to width and height int of the old ones times the
ratio, the hotspot is scaled with int truncation, and the nominal tag is the
target size. An imageless frame stays imageless. -/
def srScaleFrame {Pix : Type} (resizeFn : Pix → Nat → Nat → Pix) (ratio : ℚ)
    (target : Nat) (fr : CFrame Pix) : CFrame Pix :=
  if fr.images.isEmpty then ⟨[], fr.delay⟩
  else
    ⟨fr.images.map (fun ci =>
      let nw := (pyTrunc ((ci.w : ℚ) * ratio)).toNat
      let nh := (pyTrunc ((ci.h : ℚ) * ratio)).toNat
      ⟨resizeFn ci.pix nw nh, nw, nh,
        (pyTrunc ((ci.hot.1 : ℚ) * ratio), pyTrunc ((ci.hot.2 : ℚ) * ratio)),
        target⟩), fr.delay⟩

/-- The super resolution branch of convert_cursor: fails when the source has
no sizes; runs the super resolution loop; when the synthesized size was
never fixed, the first target size raises on the None division and the call
fails, and with no target sizes the empty merge fails the final check; a
synthesized size of zero raises a division by zero on the first target size;
otherwise every target size is scaled from the super resolved base, shadowed
when requested, and merged under the same skeleton rule as the plain branch. -/
def convertSr {Pix : Type} (srFn : CImage Pix → Pix × Nat × Nat)
    (resizeFn : Pix → Nat → Nat → Pix) (shadowFn : CImage Pix → CImage Pix)
    (advisory : ℚ) (addShadow : Bool) (src : List (CFrame Pix))
    (ts : List Nat) : Option (List (CFrame Pix)) :=
  if allNominals src = [] then none
  else
    match (srLoop srFn advisory (maxNominal src) none none src).2.2, ts with
    | none, [] => finalCheck ([] : List (CFrame Pix))
    | none, _ :: _ => none
    | some s, ts2 =>
      if s = 0 ∧ ts2 ≠ [] then none
      else
        finalCheck ((ts2.map (fun (t : Nat) =>
          applyShadow shadowFn addShadow
            ((srLoop srFn advisory (maxNominal src) none none src).1.map
              (srScaleFrame resizeFn ((t : ℚ) / (s : ℚ)) t)))).foldl
          (mergeStep src.length) [])

theorem srLoop_fixed {Pix : Type} (srFn : CImage Pix → Pix × Nat × Nat)
    (advisory : ℚ) (maxOrig : Nat) (mu : ℚ) (nom : Nat) :
    ∀ (src : List (CFrame Pix)),
      srLoop srFn advisory maxOrig (some mu) (some nom) src =
        (srBaseSpec srFn maxOrig mu nom src, some mu, some nom) := by
  intro src
  induction src with
  | nil => rfl
  | cons fr rest ih =>
    cases hf : fr.images.find? (fun i => i.nominal == maxOrig) with
    | none =>
      have e : srLoop srFn advisory maxOrig (some mu) (some nom) (fr :: rest) =
          srLoop srFn advisory maxOrig (some mu) (some nom) rest := by
        simp [srLoop, hf]
      have e2 : srBaseSpec srFn maxOrig mu nom (fr :: rest) =
          srBaseSpec srFn maxOrig mu nom rest := by
        simp [srBaseSpec, hf]
      rw [e, e2, ih]
    | some img =>
      have e : srLoop srFn advisory maxOrig (some mu) (some nom) (fr :: rest) =
          (⟨[⟨(srFn img).1, (srFn img).2.2, (srFn img).2.1,
              (pyTrunc ((img.hot.1 : ℚ) * mu), pyTrunc ((img.hot.2 : ℚ) * mu)),
              nom⟩], fr.delay⟩ ::
            (srLoop srFn advisory maxOrig (some mu) (some nom) rest).1,
           (srLoop srFn advisory maxOrig (some mu) (some nom) rest).2) := by
        simp [srLoop, hf]
      have e2 : srBaseSpec srFn maxOrig mu nom (fr :: rest) =
          ⟨[⟨(srFn img).1, (srFn img).2.2, (srFn img).2.1,
              (pyTrunc ((img.hot.1 : ℚ) * mu), pyTrunc ((img.hot.2 : ℚ) * mu)),
              nom⟩], fr.delay⟩ :: srBaseSpec srFn maxOrig mu nom rest := by
        simp [srBaseSpec, hf]
      rw [e, e2, ih]

/-- Claim C6: in super resolution mode the achieved scale factor is measured
as the inference output pixel height divided by the input pixel height; the
synthesized base nominal size is round of maximal original size times that
measured factor; every base frame hotspot is scaled by the measured factor;
and none of it depends on the advisory constant, which appears nowhere in
the result. Hypotheses: the first source frame holding a maximal size image
has an image of positive pixel height, as any real bitmap does. -/
theorem srLoop_measured {Pix : Type} (srFn : CImage Pix → Pix × Nat × Nat)
    (advisory : ℚ) (maxOrig : Nat) (src : List (CFrame Pix))
    (img0 : CImage Pix) (tl : List (CImage Pix))
    (hproc : src.filterMap
        (fun fr => fr.images.find? (fun i => i.nominal == maxOrig)) =
      img0 :: tl)
    (hh : 0 < img0.h) :
    srLoop srFn advisory maxOrig none none src =
      (srBaseSpec srFn maxOrig (((srFn img0).2.1 : ℚ) / (img0.h : ℚ))
          (pyRound ((maxOrig : ℚ) *
            (((srFn img0).2.1 : ℚ) / (img0.h : ℚ)))).toNat src,
       some (((srFn img0).2.1 : ℚ) / (img0.h : ℚ)),
       some (pyRound ((maxOrig : ℚ) *
         (((srFn img0).2.1 : ℚ) / (img0.h : ℚ)))).toNat) := by
  induction src generalizing tl with
  | nil => simp at hproc
  | cons fr rest ih =>
    cases hf : fr.images.find? (fun i => i.nominal == maxOrig) with
    | none =>
      simp only [List.filterMap_cons, hf] at hproc
      have e : srLoop srFn advisory maxOrig none none (fr :: rest) =
          srLoop srFn advisory maxOrig none none rest := by
        simp [srLoop, hf]
      have e2 : srBaseSpec srFn maxOrig
          (((srFn img0).2.1 : ℚ) / (img0.h : ℚ))
          (pyRound ((maxOrig : ℚ) *
            (((srFn img0).2.1 : ℚ) / (img0.h : ℚ)))).toNat (fr :: rest) =
          srBaseSpec srFn maxOrig (((srFn img0).2.1 : ℚ) / (img0.h : ℚ))
            (pyRound ((maxOrig : ℚ) *
              (((srFn img0).2.1 : ℚ) / (img0.h : ℚ)))).toNat rest := by
        simp [srBaseSpec, hf]
      rw [e, e2]
      exact ih tl hproc
    | some img =>
      simp only [List.filterMap_cons, hf] at hproc
      obtain ⟨h0, htl⟩ := List.cons.inj hproc
      subst h0
      have e : srLoop srFn advisory maxOrig none none (fr :: rest) =
          (⟨[⟨(srFn img).1, (srFn img).2.2, (srFn img).2.1,
              (pyTrunc ((img.hot.1 : ℚ) *
                (((srFn img).2.1 : ℚ) / (img.h : ℚ))),
               pyTrunc ((img.hot.2 : ℚ) *
                (((srFn img).2.1 : ℚ) / (img.h : ℚ)))),
              (pyRound ((maxOrig : ℚ) *
                (((srFn img).2.1 : ℚ) / (img.h : ℚ)))).toNat⟩],
            fr.delay⟩ ::
            (srLoop srFn advisory maxOrig
              (some (((srFn img).2.1 : ℚ) / (img.h : ℚ)))
              (some (pyRound ((maxOrig : ℚ) *
                (((srFn img).2.1 : ℚ) / (img.h : ℚ)))).toNat) rest).1,
           (srLoop srFn advisory maxOrig
              (some (((srFn img).2.1 : ℚ) / (img.h : ℚ)))
              (some (pyRound ((maxOrig : ℚ) *
                (((srFn img).2.1 : ℚ) / (img.h : ℚ)))).toNat) rest).2) := by
        simp [srLoop, hf, hh]
      have e2 : srBaseSpec srFn maxOrig
          (((srFn img).2.1 : ℚ) / (img.h : ℚ))
          (pyRound ((maxOrig : ℚ) *
            (((srFn img).2.1 : ℚ) / (img.h : ℚ)))).toNat (fr :: rest) =
          ⟨[⟨(srFn img).1, (srFn img).2.2, (srFn img).2.1,
              (pyTrunc ((img.hot.1 : ℚ) *
                (((srFn img).2.1 : ℚ) / (img.h : ℚ))),
               pyTrunc ((img.hot.2 : ℚ) *
                (((srFn img).2.1 : ℚ) / (img.h : ℚ)))),
              (pyRound ((maxOrig : ℚ) *
                (((srFn img).2.1 : ℚ) / (img.h : ℚ)))).toNat⟩],
            fr.delay⟩ ::
            srBaseSpec srFn maxOrig (((srFn img).2.1 : ℚ) / (img.h : ℚ))
              (pyRound ((maxOrig : ℚ) *
                (((srFn img).2.1 : ℚ) / (img.h : ℚ)))).toNat rest := by
        simp [srBaseSpec, hf]
      rw [e, srLoop_fixed, e2]

theorem finalCheck_some {Pix : Type} {m out : List (CFrame Pix)}
    (h : finalCheck m = some out) : out = m := by
  unfold finalCheck at h
  split at h
  · exact Option.noConfusion h
  · exact (Option.some.inj h).symm

theorem srLoop_cons_shape {Pix : Type} (srFn : CImage Pix → Pix × Nat × Nat)
    (advisory : ℚ) (maxOrig : Nat) (f : Option ℚ) (s : Option Nat)
    (fr : CFrame Pix) (rest : List (CFrame Pix)) {img : CImage Pix}
    (hf : fr.images.find? (fun i => i.nominal == maxOrig) = some img) :
    ∃ fr2 f2 s2,
      srLoop srFn advisory maxOrig f s (fr :: rest) =
        (fr2 :: (srLoop srFn advisory maxOrig f2 s2 rest).1,
         (srLoop srFn advisory maxOrig f2 s2 rest).2) := by
  simp only [srLoop, hf]
  exact ⟨_, _, _, rfl⟩

theorem srLoop_length_le {Pix : Type} (srFn : CImage Pix → Pix × Nat × Nat)
    (advisory : ℚ) (maxOrig : Nat) :
    ∀ (src : List (CFrame Pix)) (f : Option ℚ) (s : Option Nat),
      (srLoop srFn advisory maxOrig f s src).1.length ≤ src.length := by
  intro src
  induction src with
  | nil =>
    intro f s
    simp [srLoop]
  | cons fr rest ih =>
    intro f s
    cases hf : fr.images.find? (fun i => i.nominal == maxOrig) with
    | none =>
      have e : srLoop srFn advisory maxOrig f s (fr :: rest) =
          srLoop srFn advisory maxOrig f s rest := by
        simp [srLoop, hf]
      rw [e]
      exact (ih f s).trans (Nat.le_succ _)
    | some img =>
      obtain ⟨fr2, f2, s2, e⟩ :=
        srLoop_cons_shape srFn advisory maxOrig f s fr rest hf
      rw [e]
      simp only [List.length_cons]
      exact Nat.succ_le_succ (ih f2 s2)

theorem convertSr_length {Pix : Type} (srFn : CImage Pix → Pix × Nat × Nat)
    (resizeFn : Pix → Nat → Nat → Pix) (shadowFn : CImage Pix → CImage Pix)
    (advisory : ℚ) (addShadow : Bool) (src : List (CFrame Pix)) (ts : List Nat)
    (out : List (CFrame Pix))
    (h : convertSr srFn resizeFn shadowFn advisory addShadow src ts = some out) :
    out.length ≤ src.length := by
  unfold convertSr at h
  split at h
  · exact Option.noConfusion h
  · split at h
    · rw [show finalCheck ([] : List (CFrame Pix)) = none from rfl] at h
      exact Option.noConfusion h
    · exact Option.noConfusion h
    · split at h
      · exact Option.noConfusion h
      · have hout := finalCheck_some h
        rw [hout, foldl_mergeStep_length]
        exact Nat.min_le_left _ _

/-- Claim C1 (amended): a successful plain conversion returns exactly
min(F, W) frames, where F is the source frame count and W the frame count of
the first nonempty per size working list: the skeleton is truncated to F but
never padded, so the result falls short of F when the first size dropped
frames, and merging further target sizes never changes the frame count. A
successful super resolution conversion returns at most F frames, one per
source frame holding a maximal size image. -/
theorem convert_frame_count {Pix : Type}
    (scaleFn : ℚ → CImage Pix → CImage Pix)
    (shadowFn : CImage Pix → CImage Pix) (addShadow : Bool)
    (src : List (CFrame Pix)) (ts : List Nat) (out : List (CFrame Pix))
    (h : convertPlain scaleFn shadowFn addShadow src ts = some out) :
    (out.length = min src.length
        (firstLen (workingLists scaleFn shadowFn addShadow src ts)) ∧
      out.length ≤ src.length) ∧
    ∀ (srFn : CImage Pix → Pix × Nat × Nat) (resizeFn : Pix → Nat → Nat → Pix)
      (advisory : ℚ) (out2 : List (CFrame Pix)),
      convertSr srFn resizeFn shadowFn advisory addShadow src ts = some out2 →
      out2.length ≤ src.length := by
  constructor
  · unfold convertPlain at h
    cases hp : plainLoop scaleFn shadowFn addShadow src ts [] with
    | none =>
      rw [hp] at h
      exact Option.noConfusion h
    | some m =>
      rw [hp] at h
      have h2 : finalCheck m = some out := h
      have hm := finalCheck_some h2
      have hfold := plainLoop_some_fold scaleFn shadowFn addShadow src _ _ _ hp
      have hl : out.length = min src.length
          (firstLen (workingLists scaleFn shadowFn addShadow src ts)) := by
        rw [hm, hfold, foldl_mergeStep_length]
      exact ⟨hl, by rw [hl]; exact Nat.min_le_left _ _⟩
  · intro srFn resizeFn advisory out2 h2
    exact convertSr_length srFn resizeFn shadowFn advisory addShadow src ts
      out2 h2

/-- A two frame source for the counterexample of claim C1. -/
def srcC1 : List (CFrame Unit) :=
  [⟨[⟨(), 32, 32, (0, 0), 32⟩], 5⟩, ⟨[⟨(), 48, 48, (0, 0), 48⟩], 5⟩]

/-- Claim C1 counterexample: converting the already present size 32 of srcC1
succeeds with one merged frame although the source has two frames: the first
size working list dropped the frame without a 32 image, so the merged frame
count is neither the source frame count nor zero on failure. -/
theorem convert_frame_count_counterexample :
    ¬ ((convertPlain (fun _ i => i) (fun i => i) false srcC1 [32]).map
          List.length = some srcC1.length ∨
        convertPlain (fun _ i => i) (fun i => i) false srcC1 [32] = none) := by
  decide

/-- A two frame source for the witness of claim C1. -/
def srcC1w : List (CFrame Unit) :=
  [⟨[⟨(), 32, 32, (0, 0), 32⟩], 5⟩, ⟨[⟨(), 48, 48, (0, 0), 48⟩], 5⟩]

/-- The merged output of srcC1w at the single size 32. -/
def outC1w : List (CFrame Unit) := [⟨[⟨(), 32, 32, (0, 0), 32⟩], 5⟩]

theorem convert_frame_count_witness :
    ((outC1w.length = min srcC1w.length
        (firstLen (workingLists (fun _ i => i) (fun i => i) false srcC1w
          [32])) ∧
      outC1w.length ≤ srcC1w.length) ∧
    ∀ (srFn : CImage Unit → Unit × Nat × Nat)
      (resizeFn : Unit → Nat → Nat → Unit) (advisory : ℚ)
      (out2 : List (CFrame Unit)),
      convertSr srFn resizeFn (fun i => i) advisory false srcC1w [32] =
        some out2 →
      out2.length ≤ srcC1w.length) :=
  convert_frame_count (fun _ i => i) (fun i => i) false srcC1w [32] outC1w
    (by decide)

/-- A one frame source with a 256 pixel high image for the witness of
claim C6. -/
def srcC6 : List (CFrame Unit) := [⟨[⟨(), 256, 256, (10, 20), 32⟩], 5⟩]

theorem srLoop_measured_witness :
    srLoop (fun _ => ((), 1029, 1029)) 7 32 none none srcC6 =
      (srBaseSpec (fun _ => ((), 1029, 1029)) 32 ((1029 : ℚ) / (256 : ℚ))
          (pyRound ((32 : ℚ) * ((1029 : ℚ) / (256 : ℚ)))).toNat srcC6,
       some ((1029 : ℚ) / (256 : ℚ)),
       some (pyRound ((32 : ℚ) * ((1029 : ℚ) / (256 : ℚ)))).toNat) :=
  srLoop_measured (fun _ => ((), 1029, 1029)) 7 32 srcC6
    ⟨(), 256, 256, (10, 20), 32⟩ [] (by decide) (by decide)

/-!
### Part 4: create_symlinks over SYMLINK_MAP (src/converter.py, constants.py)
-/

/-- A directory entry: something that already existed at a path, or a
symbolic link to a target name. -/
inductive PathEntry : Type
  | external : PathEntry
  | symlinkTo : List Char → PathEntry
deriving DecidableEq

/-- The alias table SYMLINK_MAP of src/constants.py, in dict literal order. -/
def SYMLINK_MAP : List (List Char × List (List Char)) :=
  [("default".data, ["arrow".data, "left_ptr".data]),
   ("help".data,
    ["5c6cd98b3f3ebcb1f9c7f1c204630408".data,
     "d9ce0ab605698f320427677b458ad60b".data,
     "question_arrow".data, "whats_this".data]),
   ("progress".data,
    ["00000000000000020006000e7e9ffc3f".data,
     "08e8e1c95fe2fc01f976f1e063a24ccd".data,
     "3ecb610c1bf2410f44200f48c40d3599".data,
     "half-busy".data, "left_ptr_watch".data]),
   ("wait".data, ["watch".data]),
   ("crosshair".data, ["cross".data]),
   ("xterm".data, ["ibeam".data, "text".data]),
   ("circle".data, ["03b6e0fcb3499374a867c041f52298f0".data]),
   ("size_ver".data,
    ["00008160000006810000408080010102".data, "bottom_side".data,
     "n-resize".data, "row-resize".data, "sb_v_double_arrow".data,
     "split_v".data, "s-resize".data, "top_side".data, "ns-resize".data]),
   ("size_hor".data,
    ["col-resize".data, "e-resize".data, "h_double_arrow".data,
     "left_side".data, "right_side".data, "sb_h_double_arrow".data,
     "split_h".data, "w-resize".data, "we-resize".data]),
   ("size_bdiag".data,
    ["bottom_left_corner".data, "ll_angle".data, "sw-resize".data,
     "top_right_corner".data, "ur_angle".data]),
   ("size_fdiag".data,
    ["bottom_right_corner".data, "lr_angle".data, "se-resize".data,
     "top_left_corner".data, "ul_angle".data, "nwse-resize".data]),
   ("fleur".data, ["all-scroll".data, "size_all".data]),
   ("hand".data, ["hand2".data, "pointer".data]),
   ("hand2".data, ["closedhand".data]),
   ("top_right_corner".data, ["ne-resize".data]),
   ("top_left_corner".data, ["nw-resize".data]),
   ("pointer".data,
    ["9d800788f1b08800ae810202380a0822".data,
     "e29285e634086352946a0e7090d73106".data])]

/-- All target and alias pairs in the iteration order of create_symlinks. -/
def symlinkPairs : List (List Char × List Char) :=
  SYMLINK_MAP.flatMap (fun p => p.2.map (fun l => (p.1, l)))

/-- One pass of create_symlinks with an oracle ok deciding which attempts
succeed. On success the entry at the alias path is replaced by a link to the
target and the counter advances; on failure the exception is swallowed, the
counter is unchanged, and the path ends absent (the preexisting entry was
removed before the failed link call) or was absent already, modelled as
removal of the key. The directory is an association list path to entry. -/
def symlinkLoop (ok : List Char × List Char → Bool) :
    List (List Char × List Char) → List (List Char × PathEntry) → Nat →
      List (List Char × PathEntry) × Nat
  | [], fs, n => (fs, n)
  | pr :: rest, fs, n =>
    if ok pr then
      symlinkLoop ok rest (dictInsert pr.2 (PathEntry.symlinkTo pr.1) fs)
        (n + 1)
    else symlinkLoop ok rest (dictErase pr.2 fs) n

/-- Model of create_symlinks: attempt every alias of every target of the
table and return the final directory and the count of created links. -/
def createSymlinks (ok : List Char × List Char → Bool)
    (fs : List (List Char × PathEntry)) :
    List (List Char × PathEntry) × Nat :=
  symlinkLoop ok symlinkPairs fs 0

theorem symlinkLoop_count (ok : List Char × List Char → Bool) :
    ∀ (prs : List (List Char × List Char))
      (fs : List (List Char × PathEntry)) (n : Nat),
      (symlinkLoop ok prs fs n).2 = n + prs.countP ok := by
  intro prs
  induction prs with
  | nil =>
    intro fs n
    simp [symlinkLoop]
  | cons pr rest ih =>
    intro fs n
    by_cases hok : ok pr = true
    · have e : symlinkLoop ok (pr :: rest) fs n =
          symlinkLoop ok rest
            (dictInsert pr.2 (PathEntry.symlinkTo pr.1) fs) (n + 1) := by
        simp [symlinkLoop, hok]
      rw [e, ih, List.countP_cons, hok]
      simp
      omega
    · have e : symlinkLoop ok (pr :: rest) fs n =
          symlinkLoop ok rest (dictErase pr.2 fs) n := by
        simp [symlinkLoop, hok]
      rw [e, ih, List.countP_cons]
      simp [hok]

theorem dictLookup_cons {α : Type} (k k2 : List Char) (v2 : α)
    (t : List (List Char × α)) :
    dictLookup k ((k2, v2) :: t) =
      if k2 = k then some v2 else dictLookup k t := by
  by_cases hk : k2 = k
  · rw [if_pos hk]
    unfold dictLookup
    rw [List.find?_cons_of_pos]
    · rfl
    · simp [hk]
  · rw [if_neg hk]
    unfold dictLookup
    rw [List.find?_cons_of_neg]
    simp [hk]

theorem dictLookup_insert {α : Type} (k : List Char) (v : α) :
    ∀ (d : List (List Char × α)), dictLookup k (dictInsert k v d) = some v := by
  intro d
  induction d with
  | nil =>
    show dictLookup k [(k, v)] = some v
    rw [dictLookup_cons, if_pos rfl]
  | cons q t ih =>
    obtain ⟨k2, v2⟩ := q
    by_cases hk : k2 = k
    · simp only [dictInsert, if_pos hk]
      rw [dictLookup_cons, if_pos rfl]
    · simp only [dictInsert, if_neg hk]
      rw [dictLookup_cons, if_neg hk]
      exact ih

theorem dictLookup_insert_ne {α : Type} (k k2 : List Char) (v : α)
    (h : k2 ≠ k) :
    ∀ (d : List (List Char × α)),
      dictLookup k2 (dictInsert k v d) = dictLookup k2 d := by
  intro d
  induction d with
  | nil =>
    show dictLookup k2 [(k, v)] = dictLookup k2 []
    rw [dictLookup_cons, if_neg (Ne.symm h)]
  | cons q t ih =>
    obtain ⟨k3, v3⟩ := q
    by_cases hk : k3 = k
    · simp only [dictInsert, if_pos hk]
      have hne : k3 ≠ k2 := by
        rw [hk]
        exact Ne.symm h
      rw [dictLookup_cons, dictLookup_cons, if_neg (Ne.symm h), if_neg hne]
    · simp only [dictInsert, if_neg hk]
      rw [dictLookup_cons, dictLookup_cons]
      by_cases hk2 : k3 = k2
      · rw [if_pos hk2, if_pos hk2]
      · rw [if_neg hk2, if_neg hk2]
        exact ih

theorem dictLookup_erase_ne {α : Type} (k k2 : List Char) (h : k2 ≠ k) :
    ∀ (d : List (List Char × α)),
      dictLookup k2 (dictErase k d) = dictLookup k2 d := by
  intro d
  induction d with
  | nil => rfl
  | cons q t ih =>
    obtain ⟨k3, v3⟩ := q
    by_cases hk : k3 = k
    · simp only [dictErase, if_pos hk]
      have hne : k3 ≠ k2 := by
        rw [hk]
        exact Ne.symm h
      rw [dictLookup_cons, if_neg hne]
    · simp only [dictErase, if_neg hk]
      rw [dictLookup_cons, dictLookup_cons]
      by_cases hk2 : k3 = k2
      · rw [if_pos hk2, if_pos hk2]
      · rw [if_neg hk2, if_neg hk2]
        exact ih

theorem symlinkLoop_lookup (ok : List Char × List Char → Bool) :
    ∀ (prs : List (List Char × List Char)),
      (prs.map Prod.snd).Nodup →
      ∀ pr ∈ prs, ok pr = true →
      ∀ (fs : List (List Char × PathEntry)) (n : Nat),
        dictLookup pr.2 (symlinkLoop ok prs fs n).1 =
          some (PathEntry.symlinkTo pr.1) := by
  intro prs
  induction prs with
  | nil =>
    intro _ pr hpr
    simp at hpr
  | cons q rest ih =>
    intro hnd pr hpr hok fs n
    rw [List.map_cons, List.nodup_cons] at hnd
    obtain ⟨hq, hnd2⟩ := hnd
    rcases List.mem_cons.mp hpr with rfl | hpr2
    · have e : symlinkLoop ok (pr :: rest) fs n =
          symlinkLoop ok rest
            (dictInsert pr.2 (PathEntry.symlinkTo pr.1) fs) (n + 1) := by
        simp [symlinkLoop, hok]
      rw [e]
      have hne : ∀ pr2 ∈ rest, pr2.2 ≠ pr.2 := by
        intro pr2 hpr2 hx
        exact hq (hx ▸ List.mem_map_of_mem Prod.snd hpr2)
      have step : ∀ (prs2 : List (List Char × List Char))
          (fs2 : List (List Char × PathEntry)) (n2 : Nat),
          (∀ pr2 ∈ prs2, pr2.2 ≠ pr.2) →
          dictLookup pr.2 (symlinkLoop ok prs2 fs2 n2).1 =
            dictLookup pr.2 fs2 := by
        intro prs2
        induction prs2 with
        | nil =>
          intro fs2 n2 _
          rfl
        | cons q2 rest2 ih2 =>
          intro fs2 n2 hall
          have hq2 := hall q2 (List.mem_cons_self _ _)
          by_cases hok2 : ok q2 = true
          · have e2 : symlinkLoop ok (q2 :: rest2) fs2 n2 =
                symlinkLoop ok rest2
                  (dictInsert q2.2 (PathEntry.symlinkTo q2.1) fs2) (n2 + 1) := by
              simp [symlinkLoop, hok2]
            rw [e2, ih2 _ _ (fun pr2 h2 => hall pr2 (List.mem_cons_of_mem _ h2)),
              dictLookup_insert_ne _ _ _ (Ne.symm hq2)]
          · have e2 : symlinkLoop ok (q2 :: rest2) fs2 n2 =
                symlinkLoop ok rest2 (dictErase q2.2 fs2) n2 := by
              simp [symlinkLoop, hok2]
            rw [e2, ih2 _ _ (fun pr2 h2 => hall pr2 (List.mem_cons_of_mem _ h2)),
              dictLookup_erase_ne _ _ (Ne.symm hq2)]
      rw [step rest _ (n + 1) hne, dictLookup_insert]
    · by_cases hok2 : ok q = true
      · have e : symlinkLoop ok (q :: rest) fs n =
            symlinkLoop ok rest
              (dictInsert q.2 (PathEntry.symlinkTo q.1) fs) (n + 1) := by
          simp [symlinkLoop, hok2]
        rw [e]
        exact ih hnd2 pr hpr2 hok _ _
      · have e : symlinkLoop ok (q :: rest) fs n =
            symlinkLoop ok rest (dictErase q.2 fs) n := by
          simp [symlinkLoop, hok2]
        rw [e]
        exact ih hnd2 pr hpr2 hok _ _

theorem symlinkPairs_alias_nodup : (symlinkPairs.map Prod.snd).Nodup := by
  decide

/-- Claim C8: create_symlinks is a best effort, nontransactional batch. It
attempts one link per alias entry of every target of the table, replaces any
preexisting path entry at an alias location on success, silently swallows
each individual failure, and returns exactly the count of aliases created
successfully, a number between zero and the total number of alias entries. -/
theorem createSymlinks_spec (ok : List Char × List Char → Bool)
    (fs : List (List Char × PathEntry)) :
    (createSymlinks ok fs).2 = symlinkPairs.countP ok ∧
    (createSymlinks ok fs).2 ≤ symlinkPairs.length ∧
    ∀ pr ∈ symlinkPairs, ok pr = true →
      dictLookup pr.2 (createSymlinks ok fs).1 =
        some (PathEntry.symlinkTo pr.1) := by
  refine ⟨?_, ?_, ?_⟩
  · unfold createSymlinks
    rw [symlinkLoop_count]
    simp
  · unfold createSymlinks
    rw [symlinkLoop_count]
    simpa using List.countP_le_length _
  · intro pr hpr hok
    unfold createSymlinks
    exact symlinkLoop_lookup ok symlinkPairs symlinkPairs_alias_nodup pr hpr
      hok fs 0

theorem createSymlinks_spec_witness :
    (createSymlinks (fun _ => true) []).2 =
      symlinkPairs.countP (fun _ => true) ∧
    dictLookup ("watch".data) (createSymlinks (fun _ => true) []).1 =
      some (PathEntry.symlinkTo ("wait".data)) :=
  ⟨(createSymlinks_spec (fun _ => true) []).1,
   (createSymlinks_spec (fun _ => true) []).2.2 ("wait".data, "watch".data)
     (by decide) rfl⟩

end W2X
